import Mathlib

/-!
Verification of the SC6104 crypto project: a 128-bit GF(2)-linear RNG
(`oracle/RNG128.py`), the attacker's symbolic dependency-map builder and
GF(2) Gaussian-elimination solver (`recover.py`, `attacker/recover.py`),
and the oracle's output-masking channel (`oracle/app.py`).

Python arbitrary-precision integers are modelled as `Nat`; truncation to
128 bits is the explicit `&&& MASK128` the source performs.  Python lists
are modelled as `List` (for the solver's row/rhs storage, where order,
swapping and length matter) and as index functions `Nat → Nat` (for the
128-entry coefficient vectors of the symbolic map, which the source only
reads and writes at indices `0..127`).  The fallible solver returns
`Option Nat`, `none` being Python's `None`.
-/

/-- Constant `BITS = 128` from `recover.py`. -/
def BITS : Nat := 128

/-- Constant `MASK128 = (1 << 128) - 1` from `oracle/RNG128.py`. -/
def MASK128 : Nat := (1 <<< 128) - 1

/-- Function `rotl(x, r, bits=128)` from `oracle/RNG128.py`:
`r %= bits; return ((x << r) & ((1 << bits) - 1)) | (x >> (bits - r))`. -/
def rotl (x r : Nat) : Nat :=
  ((x <<< (r % 128)) &&& ((1 <<< 128) - 1)) ||| (x >>> (128 - r % 128))

/-- The state-update transform of `Linear128RNG.next_raw`
(`oracle/RNG128.py`): `t = s; t ^= (s<<7)&M; t ^= s>>13; t ^= rotl(s,37);
t &= M`. -/
def advance (s : Nat) : Nat :=
  (((s ^^^ ((s <<< 7) &&& MASK128)) ^^^ (s >>> 13)) ^^^ rotl s 37) &&& MASK128

/-- Constructor `Linear128RNG.__init__`: `self.state = seed & MASK128`. -/
def initState (seed : Nat) : Nat := seed &&& MASK128

/-- Method `Linear128RNG.next_raw` as explicit state passing: given `self.state`,
returns `(new self.state, returned value)`.  The body is transcribed from
the source; it both stores and returns `t`. -/
def next_raw (state : Nat) : Nat × Nat :=
  let s := state
  let t := (((s ^^^ ((s <<< 7) &&& MASK128)) ^^^ (s >>> 13)) ^^^ rotl s 37) &&& MASK128
  (t, t)

/-- Method `Linear128RNG.peek_next`: same computation as `next_raw` but the state
is not assigned, so the embedding is `Nat → Nat` with no state component. -/
def peek_next (state : Nat) : Nat :=
  let s := state
  (((s ^^^ ((s <<< 7) &&& MASK128)) ^^^ (s >>> 13)) ^^^ rotl s 37) &&& MASK128

/-- The generator's internal state after `k` calls to `next_raw`,
starting from `Linear128RNG(seed)`. -/
def rngState (seed : Nat) : Nat → Nat
  | 0 => initState seed
  | k + 1 => (next_raw (rngState seed k)).1

/-- The value returned by the `(k+1)`-th call to `next_raw` (0-indexed
`k`) of a generator constructed with `seed`. -/
def rngOutput (seed k : Nat) : Nat := (next_raw (rngState seed k)).2

/-- Function `predict_next_from_state(state, steps)` from `recover.py`: applies the
same linear transform `steps` times (the body re-defines `rotl` with the
identical formula). -/
def predict_next_from_state (state : Nat) (steps : Nat) : Nat :=
  match steps with
  | 0 => state
  | k + 1 =>
      let st := predict_next_from_state state k
      ((((st ^^^ ((st <<< 7) &&& ((1 <<< 128) - 1))) ^^^ (st >>> 13)) ^^^
        rotl st 37) &&& ((1 <<< 128) - 1))

/-- Fuel-driven helper for `popcount`; with fuel at least `n` it computes
the number of 1 bits of `n` via `n % 2 + popcount (n / 2)`. -/
def popcountAux : Nat → Nat → Nat
  | _, 0 => 0
  | 0, _ + 1 => 0
  | fuel + 1, n + 1 => (n + 1) % 2 + popcountAux fuel ((n + 1) / 2)

/-- Python's `bin(x).count('1')` used by the solver's verification pass
(`recover.py`): the number of 1 bits of `x`. -/
def popcount (n : Nat) : Nat := popcountAux n n

/-- Pointwise XOR-update of a coefficient vector: `v[p] ^= c` on a Python
list, over the index-function representation. -/
def upd (f : Nat → Nat) (p c : Nat) : Nat → Nat :=
  fun j => if j = p then f j ^^^ c else f j

/-- One iteration of the inner loop of `build_maps` (`recover.py`): the
contributions of current state bit `i` are scattered to
`new_coeffs[i]`, `new_coeffs[i+7]` (if `i+7 < 128`), `new_coeffs[i-13]`
(if `i-13 >= 0`) and `new_coeffs[(i+37) % 128]`. -/
def stepIter (state_coeffs : Nat → Nat) (new_coeffs : Nat → Nat) (i : Nat) : Nat → Nat :=
  let coeff := state_coeffs i
  let n1 := upd new_coeffs i coeff
  let n2 := if i + 7 < 128 then upd n1 (i + 7) coeff else n1
  let n3 := if 13 ≤ i then upd n2 (i - 13) coeff else n2
  upd n3 ((i + 37) % 128) coeff

/-- One advance of the coefficient vector in `build_maps` (`recover.py`):
`new_coeffs = [0] * BITS` followed by the scatter loop over `i`. -/
def mapStep (state_coeffs : Nat → Nat) : Nat → Nat :=
  (List.range 128).foldl (stepIter state_coeffs) (fun _ => 0)

/-- The initial coefficient vector `[1 << i for i in range(BITS)]`. -/
def basisCoeffs : Nat → Nat := fun i => 1 <<< i

/-- Loop of `build_maps`: record the current vector, then advance it. -/
def buildMapsAux (state_coeffs : Nat → Nat) : Nat → List (Nat → Nat)
  | 0 => []
  | k + 1 => state_coeffs :: buildMapsAux (mapStep state_coeffs) k

/-- Function `build_maps(steps)` from `recover.py`: `maps[t] i` is the 128-bit mask
of initial-state bits contributing to bit `i` of the state after `t`
transform steps. -/
def build_maps (steps : Nat) : List (Nat → Nat) := buildMapsAux basisCoeffs steps

/-- One iteration of the inner loop of `build_symbolic_map`
(`attacker/recover.py`).  Same four scattered contributions as
`stepIter`, in the source's order (`i+7`, `i-13`, `(i+37)%128`, then the
direct `i` contribution at the end); the local `mask` accumulator in the
source is dead code and has no counterpart here. -/
def stepIterA (state_coeffs : Nat → Nat) (new_state_coeffs : Nat → Nat) (i : Nat) : Nat → Nat :=
  let n1 := if i + 7 < 128 then upd new_state_coeffs (i + 7) (state_coeffs i) else new_state_coeffs
  let n2 := if 13 ≤ i then upd n1 (i - 13) (state_coeffs i) else n1
  let n3 := upd n2 ((i + 37) % 128) (state_coeffs i)
  upd n3 i (state_coeffs i)

/-- One advance of the coefficient vector in `build_symbolic_map`
(`attacker/recover.py`). -/
def mapStepA (state_coeffs : Nat → Nat) : Nat → Nat :=
  (List.range 128).foldl (stepIterA state_coeffs) (fun _ => 0)

/-- Loop of `build_symbolic_map` (`attacker/recover.py`). -/
def buildSymbolicMapAux (state_coeffs : Nat → Nat) : Nat → List (Nat → Nat)
  | 0 => []
  | k + 1 => state_coeffs :: buildSymbolicMapAux (mapStepA state_coeffs) k

/-- Function `build_symbolic_map(steps)` from `attacker/recover.py`. -/
def build_symbolic_map (steps : Nat) : List (Nat → Nat) :=
  buildSymbolicMapAux basisCoeffs steps

/-- Function `construct_equations(observed, output_bits)` from `recover.py`: for
each observation index `t` and observed bit `b < output_bits`, emit the
pair `(maps[t][b], (out >> b) & 1)`, skipping zero masks; returned as the
parallel `(rows, rhs)` lists of the source. -/
def constructPairs (observed : List Nat) (output_bits : Nat) : List (Nat × Nat) :=
  let maps := build_maps observed.length
  observed.enum.flatMap (fun tOut =>
    (List.range output_bits).filterMap (fun b =>
      let mask := (maps.getD tOut.1 (fun _ => 0)) b
      if mask ≠ 0 then some (mask, (tOut.2 >>> b) &&& 1) else none))

/-- The `(rows, rhs)` pair returned by `construct_equations`. -/
def construct_equations (observed : List Nat) (output_bits : Nat) : List Nat × List Nat :=
  ((constructPairs observed output_bits).map Prod.fst,
   (constructPairs observed output_bits).map Prod.snd)

/-- Elimination state of `solve_gf2`: the (row-mask, rhs-bit) pairs, the
`pivot` mapping as the list of `(col, row)` entries in insertion order,
the `row` frontier counter, and whether the `break` was taken. -/
structure GESt where
  eqs : List (Nat × Nat)
  pivots : List (Nat × Nat)
  row : Nat
  broken : Bool

/-- Pivot search of `solve_gf2`: the first `r` with `row ≤ r < n_eq` such
that `(rows[r] >> col) & 1` is set. -/
def findSel (eqs : List (Nat × Nat)) (row col : Nat) : Option Nat :=
  (List.range' row (eqs.length - row)).find? (fun r => (eqs.getD r (0, 0)).1.testBit col)

/-- Simultaneous swap `rows[i], rows[j] = rows[j], rows[i]` (applied to
the paired row/rhs entries, which the source swaps in lockstep). -/
def swapIdx (l : List (Nat × Nat)) (i j : Nat) : List (Nat × Nat) :=
  let a := l.getD i (0, 0)
  let b := l.getD j (0, 0)
  (l.set i b).set j a

/-- Elimination inner loop walker: index `r` counts from `start`; every
row other than `p` whose `col` bit is set gets the pivot pair `pr` XORed
into both its mask and its rhs bit. -/
def elimFrom (p : Nat) (pr : Nat × Nat) (col : Nat) : Nat → List (Nat × Nat) → List (Nat × Nat)
  | _, [] => []
  | r, e :: t =>
      (if r ≠ p ∧ e.1.testBit col then (e.1 ^^^ pr.1, e.2 ^^^ pr.2) else e) ::
        elimFrom p pr col (r + 1) t

/-- Loop `for r in range(n_eq): if r != row and ((rows[r] >> col) & 1): rows[r]
^= rows[row]; rhs[r] ^= rhs[row]` from `solve_gf2`. -/
def elimRows (eqs : List (Nat × Nat)) (p col : Nat) : List (Nat × Nat) :=
  elimFrom p (eqs.getD p (0, 0)) col 0 eqs

/-- One iteration of the column loop of `solve_gf2`.  After the `break`
in the source has fired (`broken`), remaining iterations do nothing,
which matches the source because the pivot scan range is then empty. -/
def elimStep (st : GESt) (col : Nat) : GESt :=
  if st.broken then st
  else
    match findSel st.eqs st.row col with
    | none => st
    | some sel =>
        let eqs1 := swapIdx st.eqs st.row sel
        let eqs2 := elimRows eqs1 st.row col
        { eqs := eqs2
          pivots := st.pivots ++ [(col, st.row)]
          row := st.row + 1
          broken := decide (st.eqs.length ≤ st.row + 1) }

/-- Candidate formation `sol |= (1 << col)` for every recorded pivot whose (post-elimination)
rhs bit is truthy. -/
def formSol (eqs : List (Nat × Nat)) (pivots : List (Nat × Nat)) : Nat :=
  pivots.foldl
    (fun s cr => if (eqs.getD cr.2 (0, 0)).2 ≠ 0 then s ||| (1 <<< cr.1) else s) 0

/-- The verification pass of `solve_gf2`: every (post-elimination) row
must satisfy `popcount(mask & sol) & 1 == rhs`. -/
def verify (eqs : List (Nat × Nat)) (sol : Nat) : Bool :=
  eqs.all (fun e => popcount (e.1 &&& sol) % 2 == e.2)

/-- Function `solve_gf2(rows, rhs)` from `recover.py`: Gaussian elimination over
GF(2), columns processed from bit 127 down to 0, followed by candidate
formation and the verification pass; `none` is the source's `None`. -/
def solve_gf2 (rows rhs : List Nat) : Option Nat :=
  let st0 : GESt := { eqs := rows.zip rhs, pivots := [], row := 0, broken := false }
  let fin := ((List.range 128).reverse).foldl elimStep st0
  let sol := formSol fin.eqs fin.pivots
  if verify fin.eqs sol then some sol else none

/-- Function `solve_gf2(rows, rhs)` from `attacker/recover.py`: the second copy of
the solver; its loop structure, pivot bookkeeping (`pivot_pos`),
elimination, candidate formation and verification are line-for-line the
same as `recover.py`'s copy, so it shares the step functions. -/
def solve_gf2A (rows rhs : List Nat) : Option Nat :=
  let st0 : GESt := { eqs := rows.zip rhs, pivots := [], row := 0, broken := false }
  let fin := ((List.range 128).reverse).foldl elimStep st0
  let sol := formSol fin.eqs fin.pivots
  if verify fin.eqs sol then some sol else none

/-- Function `mask_output(x, bits, select)` from `oracle/app.py`. -/
def mask_output (x : Nat) (bits : Nat) (select : String) : Nat :=
  if 128 ≤ bits then x &&& MASK128
  else if select = "high" then (x >>> (128 - bits)) &&& ((1 <<< bits) - 1)
  else x &&& ((1 <<< bits) - 1)

/-- An equation `(mask, rhs)` is satisfied by `x` exactly when the
source's verification test holds: `popcount(mask & x) % 2 == rhs`. -/
def satEq (x : Nat) (e : Nat × Nat) : Prop := popcount (e.1 &&& x) % 2 = e.2

/-- Predicate: `x` satisfies every equation of the list. -/
def satAll (x : Nat) (eqs : List (Nat × Nat)) : Prop := ∀ e ∈ eqs, satEq x e

/-- GF(2) dot product as the source computes it: parity of
`popcount(mask & x)`. -/
def dotp (m x : Nat) : Nat := popcount (m &&& x) % 2

/-- XOR-fold of `f` over `0, 1, ..., n-1`; analysis tool for the scatter
loops of the map builders. -/
def xorRange (f : Nat → Nat) : Nat → Nat
  | 0 => 0
  | n + 1 => xorRange f n ^^^ f n

/-- Total contribution that loop iteration `i` of the map-builder scatter
loop makes to entry `j` of the new coefficient vector. -/
def contrib (old : Nat → Nat) (i j : Nat) : Nat :=
  (if j = i then old i else 0) ^^^
    ((if i + 7 < 128 then (if j = i + 7 then old i else 0) else 0) ^^^
      ((if 13 ≤ i then (if j = i - 13 then old i else 0) else 0) ^^^
        (if j = (i + 37) % 128 then old i else 0)))

/-- List of the first `k` outputs of a generator seeded with `seed`: the
values collected by `query_oracle` before the attack. -/
def obsList (seed k : Nat) : List Nat := (List.range k).map (rngOutput seed)

/-- Loop invariant of the column loop of `solve_gf2`, relative to the
initial equation list `orig` and the predicate `processed` holding the
columns already handled.  It packages: the equation count is unchanged;
the `row` frontier equals the number of recorded pivots and stays within
range; the `break` flag implies the frontier is exhausted; row operations
preserved the solution set; pivot entry `q` sits at row position `q`;
pivot columns are in range; a recorded pivot column has its bit set in
exactly the pivot's row; a processed column that received no pivot is
clear in every row at or beyond the frontier; and all row masks stay
below `2 ^ 128`. -/
def ElimInv (n : Nat) (orig : List (Nat × Nat)) (processed : Nat → Prop)
    (st : GESt) : Prop :=
  st.eqs.length = n ∧
  st.row = st.pivots.length ∧
  st.row ≤ n ∧
  (st.broken = true → n ≤ st.row) ∧
  (∀ x, satAll x st.eqs ↔ satAll x orig) ∧
  (∀ q, q < st.pivots.length → (st.pivots.getD q (0, 0)).2 = q) ∧
  (∀ cp ∈ st.pivots, cp.1 < 128) ∧
  (∀ cp ∈ st.pivots, ∀ q, q < n →
    ((st.eqs.getD q (0, 0)).1.testBit cp.1 = decide (q = cp.2))) ∧
  (∀ c, processed c → (∀ cp ∈ st.pivots, cp.1 ≠ c) → ∀ q, st.row ≤ q → q < n →
    (st.eqs.getD q (0, 0)).1.testBit c = false) ∧
  (∀ q, q < n → (st.eqs.getD q (0, 0)).1 < 2 ^ 128)

/-! ### Popcount and parity -/

theorem popcountAux_congr : ∀ f1 f2 n, n ≤ f1 → n ≤ f2 →
    popcountAux f1 n = popcountAux f2 n := by
  intro f1
  induction f1 with
  | zero =>
      intro f2 n h1 _
      interval_cases n
      cases f2 <;> rfl
  | succ f ih =>
      intro f2 n h1 h2
      match n, f2 with
      | 0, f2 => cases f2 <;> rfl
      | n + 1, 0 => omega
      | n + 1, f2 + 1 =>
          show (n + 1) % 2 + popcountAux f ((n + 1) / 2) =
            (n + 1) % 2 + popcountAux f2 ((n + 1) / 2)
          have hd : (n + 1) / 2 ≤ n := by omega
          rw [ih f2 ((n + 1) / 2) (by omega) (by omega)]

theorem popcount_eq (n : Nat) : popcount n = n % 2 + popcount (n / 2) := by
  match n with
  | 0 => rfl
  | m + 1 =>
      show popcountAux (m + 1) (m + 1) = (m + 1) % 2 + popcount ((m + 1) / 2)
      show (m + 1) % 2 + popcountAux m ((m + 1) / 2) = (m + 1) % 2 + popcount ((m + 1) / 2)
      rw [popcountAux_congr m ((m + 1) / 2) ((m + 1) / 2) (by omega) le_rfl]
      rfl

theorem popcount_zero : popcount 0 = 0 := rfl

theorem xor_mod_two (a b : Nat) : (a ^^^ b) % 2 = (a % 2 + b % 2) % 2 := by
  have ha := Nat.testBit_zero a
  have hb := Nat.testBit_zero b
  have hx := Nat.testBit_zero (a ^^^ b)
  rw [Nat.testBit_xor] at hx
  have ha2 := Nat.mod_two_eq_zero_or_one a
  have hb2 := Nat.mod_two_eq_zero_or_one b
  rcases ha2 with h | h <;> rcases hb2 with h' | h' <;>
    simp [h, h'] at ha hb hx ⊢ <;> omega

theorem xor_div_two (a b : Nat) : (a ^^^ b) / 2 = a / 2 ^^^ b / 2 := by
  apply Nat.eq_of_testBit_eq
  intro i
  rw [Nat.testBit_xor, ← Nat.testBit_succ, ← Nat.testBit_succ, ← Nat.testBit_succ,
    Nat.testBit_xor]

theorem popcount_xor (a : Nat) : ∀ b, popcount (a ^^^ b) % 2 = (popcount a + popcount b) % 2 := by
  induction a using Nat.strong_induction_on with
  | _ a ih =>
      intro b
      rcases Nat.eq_zero_or_pos a with rfl | ha
      · simp [popcount_zero]
      · have h1 := xor_mod_two a b
        have h2 := xor_div_two a b
        have ih2 := ih (a / 2) (Nat.div_lt_self ha one_lt_two) (b / 2)
        rw [popcount_eq (a ^^^ b), popcount_eq a, popcount_eq b, h1, h2]
        omega

theorem popcount_two_pow (i : Nat) : popcount (2 ^ i) = 1 := by
  induction i with
  | zero => rfl
  | succ k ih =>
      rw [popcount_eq]
      have h1 : 2 ^ (k + 1) % 2 = 0 := by
        simp [Nat.pow_succ, Nat.mul_mod]
      have h2 : 2 ^ (k + 1) / 2 = 2 ^ k := by
        rw [Nat.pow_succ]
        exact Nat.mul_div_cancel _ (by norm_num)
      rw [h1, h2, ih]

theorem and_two_pow (i s : Nat) : 2 ^ i &&& s = if s.testBit i then 2 ^ i else 0 := by
  apply Nat.eq_of_testBit_eq
  intro j
  rw [Nat.testBit_and]
  rcases eq_or_ne j i with rfl | hne
  · cases h : s.testBit j <;> simp [h, Nat.testBit_two_pow_self]
  · have h0 : (2 ^ i).testBit j = false := Nat.testBit_two_pow_of_ne (Ne.symm hne)
    cases h : s.testBit i <;> simp [h, h0, Nat.testBit_two_pow_of_ne (Ne.symm hne)]

theorem dotp_single (i s : Nat) : dotp (1 <<< i) s = (s.testBit i).toNat := by
  rw [dotp, Nat.one_shiftLeft, and_two_pow]
  cases h : s.testBit i
  · simp [popcount_zero]
  · simp [popcount_two_pow]

theorem dotp_xor (m1 m2 x : Nat) : dotp (m1 ^^^ m2) x = (dotp m1 x + dotp m2 x) % 2 := by
  unfold dotp
  rw [Nat.and_xor_distrib_right, popcount_xor]
  omega

theorem dotp_zero (x : Nat) : dotp 0 x = 0 := by
  simp [dotp, popcount_zero]

/-! ### Bit-level description of the transform -/

theorem testBit_MASK128 (i : Nat) : MASK128.testBit i = decide (i < 128) := by
  rw [MASK128, Nat.one_shiftLeft]
  exact Nat.testBit_two_pow_sub_one 128 i

theorem testBit_high_false {x : Nat} (hx : x < 2 ^ 128) {i : Nat} (hi : 128 ≤ i) :
    x.testBit i = false := by
  exact Nat.testBit_lt_two_pow
    (Nat.lt_of_lt_of_le hx (Nat.pow_le_pow_right (by norm_num) hi))

theorem and_MASK128_lt (x : Nat) : x &&& MASK128 < 2 ^ 128 := by
  have h := Nat.and_le_right (n := x) (m := MASK128)
  have : MASK128 < 2 ^ 128 := by rw [MASK128, Nat.one_shiftLeft]; omega
  omega

theorem advance_lt (s : Nat) : advance s < 2 ^ 128 := and_MASK128_lt _

theorem advance_iterate_lt (s : Nat) (hs : s < 2 ^ 128) (t : Nat) :
    advance^[t] s < 2 ^ 128 := by
  induction t with
  | zero => simpa
  | succ k ih => rw [Function.iterate_succ_apply']; exact advance_lt _

theorem testBit_rotl37 {s : Nat} (hs : s < 2 ^ 128) {i : Nat} (hi : i < 128) :
    (rotl s 37).testBit i = s.testBit ((i + 91) % 128) := by
  have h37 : (37 : Nat) % 128 = 37 := by norm_num
  rw [rotl, h37]
  show ((s <<< 37 &&& ((1 <<< 128) - 1)) ||| s >>> (128 - 37)).testBit i = _
  rw [Nat.testBit_or, Nat.testBit_and, Nat.testBit_shiftLeft, Nat.testBit_shiftRight]
  have hM : ((1 <<< 128 : Nat) - 1).testBit i = decide (i < 128) := by
    rw [Nat.one_shiftLeft]; exact Nat.testBit_two_pow_sub_one 128 i
  rw [hM]
  by_cases h : 37 ≤ i
  · have hhi : s.testBit (128 - 37 + i) = false := testBit_high_false hs (by omega)
    have hmod : (i + 91) % 128 = i - 37 := by omega
    simp [h, hi, hhi, hmod]
  · have hmod : (i + 91) % 128 = i + 91 := by omega
    have harith : 128 - 37 + i = i + 91 := by omega
    simp [h, hmod, harith]

theorem testBit_advance {s : Nat} (hs : s < 2 ^ 128) {i : Nat} (hi : i < 128) :
    (advance s).testBit i =
      (((s.testBit i).xor ((decide (7 ≤ i)).and (s.testBit (i - 7)))).xor
        (s.testBit (i + 13))).xor (s.testBit ((i + 91) % 128)) := by
  rw [advance, Nat.testBit_and, testBit_MASK128, Nat.testBit_xor, Nat.testBit_xor,
    Nat.testBit_xor, Nat.testBit_and, Nat.testBit_shiftLeft, Nat.testBit_shiftRight,
    testBit_MASK128, testBit_rotl37 hs hi]
  have h13 : 13 + i = i + 13 := by omega
  simp [hi, h13]

theorem advance_zero : advance 0 = 0 := by decide

theorem advance_xor {s1 s2 : Nat} (h1 : s1 < 2 ^ 128) (h2 : s2 < 2 ^ 128) :
    advance (s1 ^^^ s2) = advance s1 ^^^ advance s2 := by
  have hx : s1 ^^^ s2 < 2 ^ 128 := Nat.xor_lt_two_pow h1 h2
  apply Nat.eq_of_testBit_eq
  intro i
  by_cases hi : i < 128
  · rw [Nat.testBit_xor, testBit_advance hx hi, testBit_advance h1 hi,
      testBit_advance h2 hi]
    simp only [Nat.testBit_xor, Bool.and_xor_distrib_left]
    generalize s1.testBit i = a1
    generalize s2.testBit i = a2
    generalize (decide (7 ≤ i)).and (s1.testBit (i - 7)) = b1
    generalize (decide (7 ≤ i)).and (s2.testBit (i - 7)) = b2
    generalize s1.testBit (i + 13) = c1
    generalize s2.testBit (i + 13) = c2
    generalize s1.testBit ((i + 91) % 128) = d1
    generalize s2.testBit ((i + 91) % 128) = d2
    revert a1 a2 b1 b2 c1 c2 d1 d2
    decide
  · rw [Nat.testBit_xor, testBit_high_false (advance_lt _) (by omega),
      testBit_high_false (advance_lt _) (by omega),
      testBit_high_false (advance_lt _) (by omega)]
    rfl

/-! ### Scatter loop analysis for the symbolic map builders -/

theorem stepIter_apply (old acc : Nat → Nat) (i j : Nat) :
    stepIter old acc i j = acc j ^^^ contrib old i j := by
  simp only [stepIter, contrib]
  split_ifs <;> first
    | (exfalso; omega)
    | simp_all [upd, Nat.xor_assoc]

theorem stepIterA_apply (old acc : Nat → Nat) (i j : Nat) :
    stepIterA old acc i j = acc j ^^^ contrib old i j := by
  simp only [stepIterA, contrib]
  split_ifs <;> first
    | (exfalso; omega)
    | simp_all [upd, Nat.xor_assoc]

theorem xorRange_congr (f g : Nat → Nat) (n : Nat) (h : ∀ i, i < n → f i = g i) :
    xorRange f n = xorRange g n := by
  induction n with
  | zero => rfl
  | succ m ih =>
      rw [xorRange, xorRange, ih (fun i hi => h i (by omega)), h m (by omega)]

theorem xorRange_zero_of (f : Nat → Nat) (n : Nat) (h : ∀ i, i < n → f i = 0) :
    xorRange f n = 0 := by
  induction n with
  | zero => rfl
  | succ m ih =>
      rw [xorRange, ih (fun i hi => h i (by omega)), h m (by omega)]
      rfl

theorem xorRange_single (f : Nat → Nat) : ∀ n a : Nat, a < n →
    (∀ i, i < n → i ≠ a → f i = 0) → xorRange f n = f a := by
  intro n
  induction n with
  | zero => intro a ha _; omega
  | succ m ih =>
      intro a ha h
      rcases eq_or_ne m a with rfl | hne
      · rw [xorRange, xorRange_zero_of f m (fun i hi => h i (by omega) (by omega)),
          Nat.zero_xor]
      · rw [xorRange, h m (by omega) hne, Nat.xor_zero]
        exact ih a (by omega) (fun i hi hia => h i (by omega) hia)

theorem xorRange_xor (f g : Nat → Nat) (n : Nat) :
    xorRange (fun i => f i ^^^ g i) n = xorRange f n ^^^ xorRange g n := by
  induction n with
  | zero => simp [xorRange]
  | succ m ih =>
      rw [xorRange, xorRange, xorRange, ih]
      show (xorRange f m ^^^ xorRange g m) ^^^ (f m ^^^ g m) = _
      rw [Nat.xor_assoc, ← Nat.xor_assoc (xorRange g m) (f m) (g m),
        Nat.xor_comm (xorRange g m) (f m), Nat.xor_assoc (f m) (xorRange g m) (g m),
        ← Nat.xor_assoc]

theorem foldRange_stepIter (old : Nat → Nat) (j : Nat) :
    ∀ n (acc : Nat → Nat), ((List.range n).foldl (stepIter old) acc) j
      = acc j ^^^ xorRange (fun i => contrib old i j) n := by
  intro n
  induction n with
  | zero => intro acc; simp [xorRange]
  | succ m ih =>
      intro acc
      rw [List.range_succ, List.foldl_append, List.foldl_cons, List.foldl_nil,
        stepIter_apply, ih acc, xorRange, Nat.xor_assoc]

theorem foldRange_stepIterA (old : Nat → Nat) (j : Nat) :
    ∀ n (acc : Nat → Nat), ((List.range n).foldl (stepIterA old) acc) j
      = acc j ^^^ xorRange (fun i => contrib old i j) n := by
  intro n
  induction n with
  | zero => intro acc; simp [xorRange]
  | succ m ih =>
      intro acc
      rw [List.range_succ, List.foldl_append, List.foldl_cons, List.foldl_nil,
        stepIterA_apply, ih acc, xorRange, Nat.xor_assoc]

theorem xorRange_pick_direct (old : Nat → Nat) (j : Nat) (hj : j < 128) :
    xorRange (fun i => if j = i then old i else 0) 128 = old j := by
  rw [xorRange_single _ 128 j hj (fun i _ hij => by simp [Ne.symm hij])]
  simp

theorem xorRange_pick_shl (old : Nat → Nat) (j : Nat) (hj : j < 128) :
    xorRange (fun i => if i + 7 < 128 then (if j = i + 7 then old i else 0) else 0) 128
      = if 7 ≤ j then old (j - 7) else 0 := by
  by_cases h7 : 7 ≤ j
  · rw [if_pos h7, xorRange_single _ 128 (j - 7) (by omega)]
    · rw [if_pos (by omega), if_pos (by omega)]
    · intro i _ hia
      split_ifs with g1 g2
      · omega
      · rfl
      · rfl
  · rw [if_neg h7, xorRange_zero_of]
    intro i _
    split_ifs with g1 g2
    · omega
    · rfl
    · rfl

theorem xorRange_pick_shr (old : Nat → Nat) (j : Nat) (hj : j < 128) :
    xorRange (fun i => if 13 ≤ i then (if j = i - 13 then old i else 0) else 0) 128
      = if j + 13 < 128 then old (j + 13) else 0 := by
  by_cases h13 : j + 13 < 128
  · rw [if_pos h13, xorRange_single _ 128 (j + 13) (by omega)]
    · rw [if_pos (by omega), if_pos (by omega)]
    · intro i _ hia
      split_ifs with g1 g2
      · omega
      · rfl
      · rfl
  · rw [if_neg h13, xorRange_zero_of]
    intro i hi
    split_ifs with g1 g2
    · omega
    · rfl
    · rfl

theorem xorRange_pick_rot (old : Nat → Nat) (j : Nat) (hj : j < 128) :
    xorRange (fun i => if j = (i + 37) % 128 then old i else 0) 128
      = old ((j + 91) % 128) := by
  rw [xorRange_single _ 128 ((j + 91) % 128) (Nat.mod_lt _ (by norm_num))]
  · rw [if_pos (by omega)]
  · intro i hi hia
    rw [if_neg (by omega)]

theorem mapStep_apply (old : Nat → Nat) (j : Nat) (hj : j < 128) :
    mapStep old j = old j ^^^ ((if 7 ≤ j then old (j - 7) else 0) ^^^
      ((if j + 13 < 128 then old (j + 13) else 0) ^^^ old ((j + 91) % 128))) := by
  rw [mapStep, foldRange_stepIter, Nat.zero_xor]
  rw [show (fun i => contrib old i j) = fun i =>
      (if j = i then old i else 0) ^^^
        ((if i + 7 < 128 then (if j = i + 7 then old i else 0) else 0) ^^^
          ((if 13 ≤ i then (if j = i - 13 then old i else 0) else 0) ^^^
            (if j = (i + 37) % 128 then old i else 0))) from rfl]
  rw [xorRange_xor, xorRange_xor, xorRange_xor, xorRange_pick_direct old j hj,
    xorRange_pick_shl old j hj, xorRange_pick_shr old j hj, xorRange_pick_rot old j hj]

theorem mapStepA_eq (old : Nat → Nat) : mapStepA old = mapStep old := by
  funext j
  rw [mapStepA, mapStep, foldRange_stepIterA, foldRange_stepIter]

theorem mapStep_high (old : Nat → Nat) (j : Nat) (hj : 128 ≤ j) : mapStep old j = 0 := by
  rw [mapStep, foldRange_stepIter, Nat.zero_xor, xorRange_zero_of]
  intro i hi
  rw [contrib, if_neg (by omega)]
  have h2 : ∀ v : Nat, (if i + 7 < 128 then (if j = i + 7 then v else 0) else 0) = 0 := by
    intro v; split_ifs <;> first | omega | rfl
  have h3 : ∀ v : Nat, (if 13 ≤ i then (if j = i - 13 then v else 0) else 0) = 0 := by
    intro v; split_ifs <;> first | omega | rfl
  have h4 : (if j = (i + 37) % 128 then old i else 0) = 0 := by
    rw [if_neg (by omega)]
  rw [h2, h3, h4]
  rfl

/-! ### Map fidelity -/

theorem mapStep_lt (old : Nat → Nat) (h : ∀ i, i < 128 → old i < 2 ^ 128) :
    ∀ j, mapStep old j < 2 ^ 128 := by
  intro j
  by_cases hj : j < 128
  · rw [mapStep_apply old j hj]
    have b1 : (if 7 ≤ j then old (j - 7) else 0) < 2 ^ 128 := by
      split_ifs <;> first | exact h _ (by omega) | positivity
    have b2 : (if j + 13 < 128 then old (j + 13) else 0) < 2 ^ 128 := by
      split_ifs with hg <;> first | exact h _ hg | positivity
    exact Nat.xor_lt_two_pow (h j hj) (Nat.xor_lt_two_pow b1
      (Nat.xor_lt_two_pow b2 (h _ (Nat.mod_lt _ (by norm_num)))))
  · rw [mapStep_high old j (by omega)]
    positivity

theorem basisCoeffs_lt (i : Nat) (hi : i < 128) : basisCoeffs i < 2 ^ 128 := by
  rw [basisCoeffs, Nat.one_shiftLeft]
  exact Nat.pow_lt_pow_right (by norm_num) hi

theorem mapStep_iterate_lt (t : Nat) :
    ∀ i, i < 128 → (mapStep^[t] basisCoeffs) i < 2 ^ 128 := by
  induction t with
  | zero => intro i hi; simpa using basisCoeffs_lt i hi
  | succ k ih =>
      intro i hi
      rw [Function.iterate_succ_apply']
      exact mapStep_lt _ ih i

theorem buildMapsAux_getD (d : Nat → Nat) :
    ∀ (k t : Nat) (coeffs : Nat → Nat), t < k →
      (buildMapsAux coeffs k).getD t d = mapStep^[t] coeffs := by
  intro k
  induction k with
  | zero => intro t coeffs ht; omega
  | succ m ih =>
      intro t coeffs ht
      match t with
      | 0 => rfl
      | t + 1 =>
          show (buildMapsAux (mapStep coeffs) m).getD t d = _
          rw [ih t (mapStep coeffs) (by omega), ← Function.iterate_succ_apply]

theorem build_maps_getD (T t : Nat) (ht : t < T) (d : Nat → Nat) :
    (build_maps T).getD t d = mapStep^[t] basisCoeffs :=
  buildMapsAux_getD d T t basisCoeffs ht

theorem map_fidelity (s : Nat) (hs : s < 2 ^ 128) :
    ∀ t i, i < 128 → dotp ((mapStep^[t] basisCoeffs) i) s
      = ((advance^[t] s).testBit i).toNat := by
  intro t
  induction t with
  | zero =>
      intro i hi
      show dotp (basisCoeffs i) s = (s.testBit i).toNat
      rw [basisCoeffs]
      exact dotp_single i s
  | succ k ih =>
      intro j hj
      rw [Function.iterate_succ_apply' mapStep, Function.iterate_succ_apply' advance]
      have hcur : advance^[k] s < 2 ^ 128 := advance_iterate_lt s hs k
      rw [mapStep_apply _ j hj, testBit_advance hcur hj, dotp_xor, dotp_xor, dotp_xor]
      have e1 : dotp ((mapStep^[k] basisCoeffs) j) s = ((advance^[k] s).testBit j).toNat :=
        ih j hj
      have e2 : dotp (if 7 ≤ j then (mapStep^[k] basisCoeffs) (j - 7) else 0) s
          = ((decide (7 ≤ j)).and ((advance^[k] s).testBit (j - 7))).toNat := by
        by_cases h7 : 7 ≤ j
        · rw [if_pos h7, ih (j - 7) (by omega)]
          simp [h7]
        · rw [if_neg h7, dotp_zero]
          simp [h7]
      have e3 : dotp (if j + 13 < 128 then (mapStep^[k] basisCoeffs) (j + 13) else 0) s
          = ((advance^[k] s).testBit (j + 13)).toNat := by
        by_cases h13 : j + 13 < 128
        · rw [if_pos h13, ih (j + 13) h13]
        · rw [if_neg h13, dotp_zero, testBit_high_false hcur (by omega)]
          rfl
      have e4 : dotp ((mapStep^[k] basisCoeffs) ((j + 91) % 128)) s
          = ((advance^[k] s).testBit ((j + 91) % 128)).toNat :=
        ih _ (Nat.mod_lt _ (by norm_num))
      rw [e1, e2, e3, e4]
      generalize (advance^[k] s).testBit j = A
      generalize (decide (7 ≤ j)).and ((advance^[k] s).testBit (j - 7)) = B
      generalize (advance^[k] s).testBit (j + 13) = C
      generalize (advance^[k] s).testBit ((j + 91) % 128) = D
      cases A <;> cases B <;> cases C <;> cases D <;> rfl

/-! ### Solver infrastructure -/

theorem getD_set_lemma (l : List (Nat × Nat)) (m : Nat) (v : Nat × Nat) (k : Nat)
    (hm : m < l.length) :
    (l.set m v).getD k (0, 0) = if k = m then v else l.getD k (0, 0) := by
  rcases eq_or_ne k m with rfl | hne
  · rw [if_pos rfl, List.getD_eq_getElem _ _ (by simpa using hm)]
    exact List.getElem_set_self _
  · rw [if_neg hne]
    by_cases hk : k < l.length
    · rw [List.getD_eq_getElem _ _ (by simpa using hk), List.getD_eq_getElem _ _ hk]
      exact List.getElem_set_ne (Ne.symm hne) _
    · rw [List.getD_eq_default _ _ (by simpa using hk), List.getD_eq_default _ _ (by omega)]

theorem swapIdx_length (l : List (Nat × Nat)) (i j : Nat) :
    (swapIdx l i j).length = l.length := by
  simp [swapIdx]

theorem swapIdx_getD (l : List (Nat × Nat)) (i j : Nat) (hi : i < l.length)
    (hj : j < l.length) (k : Nat) :
    (swapIdx l i j).getD k (0, 0) =
      if k = j then l.getD i (0, 0)
      else if k = i then l.getD j (0, 0)
      else l.getD k (0, 0) := by
  rw [swapIdx]
  rw [getD_set_lemma _ j _ k (by simpa using hj), getD_set_lemma _ i _ k hi]

theorem findSel_some {eqs : List (Nat × Nat)} {row col sel : Nat}
    (h : findSel eqs row col = some sel) :
    row ≤ sel ∧ sel < eqs.length ∧ (eqs.getD sel (0, 0)).1.testBit col = true := by
  have hmem := List.mem_of_find?_eq_some h
  have hp := List.find?_some h
  rw [List.mem_range'] at hmem
  obtain ⟨i, hi, rfl⟩ := hmem
  exact ⟨by omega, by omega, hp⟩

theorem findSel_none {eqs : List (Nat × Nat)} {row col : Nat}
    (h : findSel eqs row col = none) :
    ∀ r, row ≤ r → r < eqs.length → (eqs.getD r (0, 0)).1.testBit col = false := by
  intro r hr1 hr2
  have := List.find?_eq_none.mp h r (by
    rw [List.mem_range']
    exact ⟨r - row, by omega, by omega⟩)
  simpa using this

theorem elimFrom_length (p : Nat) (pr : Nat × Nat) (col : Nat) :
    ∀ (l : List (Nat × Nat)) (s : Nat), (elimFrom p pr col s l).length = l.length := by
  intro l
  induction l with
  | nil => intro s; rfl
  | cons e t ih => intro s; simp [elimFrom, ih (s + 1)]

theorem elimFrom_getD (p : Nat) (pr : Nat × Nat) (col : Nat) :
    ∀ (l : List (Nat × Nat)) (s k : Nat), k < l.length →
      (elimFrom p pr col s l).getD k (0, 0) =
        (if s + k ≠ p ∧ (l.getD k (0, 0)).1.testBit col
         then ((l.getD k (0, 0)).1 ^^^ pr.1, (l.getD k (0, 0)).2 ^^^ pr.2)
         else l.getD k (0, 0)) := by
  intro l
  induction l with
  | nil => intro s k hk; simp at hk
  | cons e t ih =>
      intro s k hk
      match k with
      | 0 => simp [elimFrom]
      | k + 1 =>
          have h1 : (elimFrom p pr col s (e :: t)).getD (k + 1) (0, 0)
              = (elimFrom p pr col (s + 1) t).getD k (0, 0) := rfl
          have h2 : ((e :: t).getD (k + 1) (0, 0)) = t.getD k (0, 0) := rfl
          rw [h1, h2, ih (s + 1) k (by simpa using hk)]
          have h3 : s + 1 + k = s + (k + 1) := by omega
          rw [h3]

theorem elimRows_length (eqs : List (Nat × Nat)) (p col : Nat) :
    (elimRows eqs p col).length = eqs.length := elimFrom_length ..

theorem elimRows_getD (eqs : List (Nat × Nat)) (p col k : Nat) (hk : k < eqs.length) :
    (elimRows eqs p col).getD k (0, 0) =
      (if k ≠ p ∧ (eqs.getD k (0, 0)).1.testBit col
       then ((eqs.getD k (0, 0)).1 ^^^ (eqs.getD p (0, 0)).1,
             (eqs.getD k (0, 0)).2 ^^^ (eqs.getD p (0, 0)).2)
       else eqs.getD k (0, 0)) := by
  rw [elimRows, elimFrom_getD p _ col eqs 0 k hk]
  simp

theorem satAll_iff_getD (x : Nat) (eqs : List (Nat × Nat)) :
    satAll x eqs ↔ ∀ q, q < eqs.length → satEq x (eqs.getD q (0, 0)) := by
  constructor
  · intro h q hq
    apply h
    rw [List.getD_eq_getElem _ _ hq]
    exact List.getElem_mem hq
  · intro h e he
    obtain ⟨q, hq, rfl⟩ := List.mem_iff_getElem.mp he
    have := h q hq
    rwa [List.getD_eq_getElem _ _ hq] at this

theorem satEq_rhs_lt {x : Nat} {e : Nat × Nat} (h : satEq x e) : e.2 < 2 := by
  rw [satEq] at h
  omega

theorem satEq_xor_iff {x : Nat} {m b pm pb : Nat} (hp : satEq x (pm, pb)) :
    (satEq x (m ^^^ pm, b ^^^ pb) ↔ satEq x (m, b)) := by
  have hpb : dotp pm x = pb := hp
  have hu : dotp m x < 2 := Nat.mod_lt _ (by norm_num)
  have hpb2 : pb < 2 := by rw [← hpb]; exact Nat.mod_lt _ (by norm_num)
  show dotp (m ^^^ pm) x = b ^^^ pb ↔ dotp m x = b
  rw [dotp_xor, hpb]
  constructor
  · intro h
    have hb : b = (dotp m x + pb) % 2 ^^^ pb := by
      rw [h]
      exact (Nat.xor_cancel_right pb b).symm
    rw [hb]
    rcases (by omega : dotp m x = 0 ∨ dotp m x = 1) with h0 | h0 <;>
      rcases (by omega : pb = 0 ∨ pb = 1) with h1 | h1 <;>
        rw [h0, h1] <;> decide
  · intro h
    rw [← h]
    rcases (by omega : dotp m x = 0 ∨ dotp m x = 1) with h0 | h0 <;>
      rcases (by omega : pb = 0 ∨ pb = 1) with h1 | h1 <;>
        rw [h0, h1] <;> decide

/-! ### Row operations preserve the solution set -/

theorem satAll_swapIdx (x : Nat) (l : List (Nat × Nat)) (i j : Nat)
    (hi : i < l.length) (hj : j < l.length) :
    satAll x (swapIdx l i j) ↔ satAll x l := by
  rw [satAll_iff_getD, satAll_iff_getD, swapIdx_length]
  constructor
  · intro h q hq
    rcases eq_or_ne q i with rfl | hqi
    · have := h j hj
      rw [swapIdx_getD l q j hi hj j] at this
      simpa using this
    · rcases eq_or_ne q j with rfl | hqj
      · have := h i hi
        rw [swapIdx_getD l i q hi hj i] at this
        rcases eq_or_ne i q with h' | h' <;> simp [h'] at this <;> simpa [h'] using this
      · have := h q hq
        rwa [swapIdx_getD l i j hi hj q, if_neg hqj, if_neg hqi] at this
  · intro h q hq
    rw [swapIdx_getD l i j hi hj q]
    split_ifs <;> first | exact h i hi | exact h j hj | exact h q hq

theorem satAll_elimRows (x : Nat) (eqs : List (Nat × Nat)) (p col : Nat)
    (hp : p < eqs.length) :
    satAll x (elimRows eqs p col) ↔ satAll x eqs := by
  rw [satAll_iff_getD, satAll_iff_getD, elimRows_length]
  have hpiv : (elimRows eqs p col).getD p (0, 0) = eqs.getD p (0, 0) := by
    rw [elimRows_getD eqs p col p hp]
    simp
  constructor
  · intro h q hq
    have hpe : satEq x (eqs.getD p (0, 0)) := by
      have := h p hp
      rwa [hpiv] at this
    have := h q hq
    rw [elimRows_getD eqs p col q hq] at this
    split_ifs at this with hc
    · exact (satEq_xor_iff hpe).mp this
    · exact this
  · intro h q hq
    rw [elimRows_getD eqs p col q hq]
    split_ifs with hc
    · exact (satEq_xor_iff (h p hp)).mpr (h q hq)
    · exact h q hq

theorem elimStep_eqs_length (st : GESt) (col : Nat) :
    (elimStep st col).eqs.length = st.eqs.length := by
  rw [elimStep]
  split_ifs
  · rfl
  · match hsel : findSel st.eqs st.row col with
    | none => rfl
    | some sel =>
        show (elimRows (swapIdx st.eqs st.row sel) st.row col).length = _
        rw [elimRows_length, swapIdx_length]

theorem elimStep_satAll (x : Nat) (st : GESt) (col : Nat) :
    satAll x (elimStep st col).eqs ↔ satAll x st.eqs := by
  rw [elimStep]
  split_ifs
  · rfl
  · match hsel : findSel st.eqs st.row col with
    | none => rfl
    | some sel =>
        obtain ⟨h1, h2, h3⟩ := findSel_some hsel
        show satAll x (elimRows (swapIdx st.eqs st.row sel) st.row col) ↔ _
        rw [satAll_elimRows x _ st.row col (by rw [swapIdx_length]; omega),
          satAll_swapIdx x st.eqs st.row sel (by omega) h2]

theorem foldElim_satAll (x : Nat) (cols : List Nat) :
    ∀ st : GESt, satAll x (cols.foldl elimStep st).eqs ↔ satAll x st.eqs := by
  induction cols with
  | nil => intro st; rfl
  | cons c cs ih =>
      intro st
      rw [List.foldl_cons, ih (elimStep st c), elimStep_satAll]

theorem verify_eq_true_iff (eqs : List (Nat × Nat)) (sol : Nat) :
    verify eqs sol = true ↔ satAll sol eqs := by
  rw [verify, List.all_eq_true]
  constructor
  · intro h e he
    simpa using h e he
  · intro h e he
    simpa using h e he

/-- If the solver returns a value, that value satisfies every equation of
the input system (elimination only swaps rows and XORs one row into
another, both invertible, and the verification pass checks the final
system). -/
theorem solve_gf2_sound (rows rhs : List Nat) (sol : Nat)
    (h : solve_gf2 rows rhs = some sol) : satAll sol (rows.zip rhs) := by
  simp only [solve_gf2] at h
  revert h
  generalize hF : ((List.range 128).reverse).foldl elimStep
    { eqs := rows.zip rhs, pivots := [], row := 0, broken := false } = fin
  intro h
  split_ifs at h with hv
  · have hsol : formSol fin.eqs fin.pivots = sol := by injection h
    have hsat : satAll sol fin.eqs := by
      rw [← hsol]
      exact (verify_eq_true_iff _ _).mp hv
    have h2 := (foldElim_satAll sol ((List.range 128).reverse)
      { eqs := rows.zip rhs, pivots := [], row := 0, broken := false }).mp
    exact h2 (by rw [hF]; exact hsat)

/-! ### The elimination invariant -/

theorem getD_concat (l : List (Nat × Nat)) (e : Nat × Nat) (q : Nat) :
    (l ++ [e]).getD q (0, 0) =
      if q < l.length then l.getD q (0, 0)
      else if q = l.length then e else (0, 0) := by
  induction l generalizing q with
  | nil =>
      match q with
      | 0 => rfl
      | q + 1 => simp [List.getD]
  | cons a t ih =>
      match q with
      | 0 =>
          rw [if_pos (by simp)]
          rfl
      | q + 1 =>
          show (t ++ [e]).getD q (0, 0) = _
          rw [ih q]
          simp only [List.length_cons]
          split_ifs <;> first | rfl | omega

theorem pivots_mem_pos {st : GESt} (hrow : st.row = st.pivots.length)
    (hpos : ∀ q, q < st.pivots.length → (st.pivots.getD q (0, 0)).2 = q)
    {cp : Nat × Nat} (hcp : cp ∈ st.pivots) : cp.2 < st.row := by
  obtain ⟨qi, hqi, heq⟩ := List.mem_iff_getElem.mp hcp
  have := hpos qi hqi
  rw [List.getD_eq_getElem _ _ hqi, heq] at this
  omega

theorem elimStep_inv (n : Nat) (orig : List (Nat × Nat)) (P : Nat → Prop)
    (st : GESt) (col : Nat) (hcol : col < 128)
    (hinv : ElimInv n orig P st) :
    ElimInv n orig (fun c => c = col ∨ P c) (elimStep st col) := by
  obtain ⟨hlen, hrow, hrown, hbrk, hsat, hpos, hpcols, hI3, hI2, hmask⟩ := hinv
  rw [elimStep]
  by_cases hb : st.broken = true
  · rw [if_pos hb]
    refine ⟨hlen, hrow, hrown, hbrk, hsat, hpos, hpcols, hI3, ?_, hmask⟩
    intro c _ _ q hq1 hq2
    have := hbrk hb
    omega
  · rw [if_neg hb]
    match hsel : findSel st.eqs st.row col with
    | none =>
        refine ⟨hlen, hrow, hrown, hbrk, hsat, hpos, hpcols, hI3, ?_, hmask⟩
        intro c hc hnp q hq1 hq2
        rcases hc with rfl | hc
        · exact findSel_none hsel q hq1 (by omega)
        · exact hI2 c hc (fun cp hcp => hnp cp hcp) q hq1 hq2
    | some sel =>
        obtain ⟨hfs1, hfs2, hfs3⟩ := findSel_some hsel
        show ElimInv n orig (fun c => c = col ∨ P c)
          { eqs := elimRows (swapIdx st.eqs st.row sel) st.row col,
            pivots := st.pivots ++ [(col, st.row)], row := st.row + 1,
            broken := decide (st.eqs.length ≤ st.row + 1) }
        unfold ElimInv
        dsimp only
        have hseln : sel < n := by omega
        have hrlt : st.row < n := by omega
        have hrowlen : st.row < st.eqs.length := by omega
        have hE1len : (swapIdx st.eqs st.row sel).length = n := by
          rw [swapIdx_length]; exact hlen
        have hE1get : ∀ k, (swapIdx st.eqs st.row sel).getD k (0, 0) =
            if k = sel then st.eqs.getD st.row (0, 0)
            else if k = st.row then st.eqs.getD sel (0, 0)
            else st.eqs.getD k (0, 0) :=
          fun k => swapIdx_getD st.eqs st.row sel hrowlen hfs2 k
        have hE1row : (swapIdx st.eqs st.row sel).getD st.row (0, 0)
            = st.eqs.getD sel (0, 0) := by
          rw [hE1get st.row]
          rcases eq_or_ne st.row sel with h' | h'
          · rw [if_pos h', h']
          · rw [if_neg h', if_pos rfl]
        have hE2len : (elimRows (swapIdx st.eqs st.row sel) st.row col).length = n := by
          rw [elimRows_length]; exact hE1len
        have hE2get : ∀ k, k < n →
            (elimRows (swapIdx st.eqs st.row sel) st.row col).getD k (0, 0) =
              (if k ≠ st.row ∧ ((swapIdx st.eqs st.row sel).getD k (0, 0)).1.testBit col
               then (((swapIdx st.eqs st.row sel).getD k (0, 0)).1 ^^^
                       (st.eqs.getD sel (0, 0)).1,
                     ((swapIdx st.eqs st.row sel).getD k (0, 0)).2 ^^^
                       (st.eqs.getD sel (0, 0)).2)
               else (swapIdx st.eqs st.row sel).getD k (0, 0)) := by
          intro k hk
          rw [elimRows_getD _ st.row col k (by omega), hE1row]
        have hE2row : (elimRows (swapIdx st.eqs st.row sel) st.row col).getD st.row (0, 0)
            = st.eqs.getD sel (0, 0) := by
          rw [hE2get st.row hrlt, if_neg (fun h => h.1 rfl), hE1row]
        refine ⟨hE2len, ?_, by omega, ?_, ?_, ?_, ?_, ?_, ?_, ?_⟩
        · simp [hrow]
        · intro hdec
          have h' : st.eqs.length ≤ st.row + 1 := of_decide_eq_true hdec
          omega
        · intro x
          rw [satAll_elimRows x _ st.row col (by omega),
            satAll_swapIdx x st.eqs st.row sel hrowlen hfs2]
          exact hsat x
        · intro q hq
          simp only [List.length_append, List.length_cons, List.length_nil] at hq
          rw [getD_concat]
          split_ifs with h1 h2
          · exact hpos q h1
          · rw [h2, ← hrow]
          · omega
        · intro cp hcp
          rcases List.mem_append.mp hcp with h' | h'
          · exact hpcols cp h'
          · rw [List.mem_singleton.mp h']
            exact hcol
        · -- I3 for every pivot of the extended list
          intro cp hcp q hq
          rcases List.mem_append.mp hcp with hold | hnew
          · -- an old pivot (c, p) with p < st.row
            have hplt : cp.2 < st.row := pivots_mem_pos hrow hpos hold
            have hE1bit : ∀ k, k < n →
                ((swapIdx st.eqs st.row sel).getD k (0, 0)).1.testBit cp.1
                  = decide (k = cp.2) := by
              intro k hk
              rw [hE1get k]
              split_ifs with h1 h2
              · rw [hI3 cp hold st.row hrlt]
                have : ¬ st.row = cp.2 := by omega
                have h2 : ¬ k = cp.2 := by omega
                simp [this, h2]
              · rw [hI3 cp hold sel hseln]
                have : ¬ sel = cp.2 := by omega
                have h3 : ¬ k = cp.2 := by omega
                simp [this, h3]
              · exact hI3 cp hold k hk
            rw [hE2get q hq]
            split_ifs with h1
            · rw [Nat.testBit_xor, hE1bit q hq, ← hE1row, hE1bit st.row hrlt]
              have : ¬ st.row = cp.2 := by omega
              simp [this]
            · exact hE1bit q hq
          · -- the new pivot (col, st.row)
            rw [List.mem_singleton.mp hnew]
            show ((elimRows (swapIdx st.eqs st.row sel) st.row col).getD q
              (0, 0)).1.testBit col = decide (q = st.row)
            rcases eq_or_ne q st.row with rfl | hqr
            · rw [hE2row, hfs3]
              simp
            · rw [hE2get q hq]
              split_ifs with h1
              · rcases h1 with ⟨-, h1b⟩
                rw [Nat.testBit_xor, hfs3, h1b]
                simp [hqr]
              · have h2 : ((swapIdx st.eqs st.row sel).getD q (0, 0)).1.testBit col
                    = false := by
                  rcases hb2 : ((swapIdx st.eqs st.row sel).getD q (0, 0)).1.testBit col
                  · rfl
                  · exact absurd ⟨hqr, hb2⟩ h1
                rw [h2]
                simp [hqr]
        · -- I2 for the extended processed set
          intro c hc hnp q hq1 hq2
          have hcne : c ≠ col := by
            intro rfl'
            exact (hnp (col, st.row) (List.mem_append_right _ (List.mem_singleton_self _)))
              rfl'.symm
          have hPc : P c := by
            rcases hc with rfl | hc
            · exact absurd rfl hcne
            · exact hc
          have hold : ∀ k, st.row ≤ k → k < n → (st.eqs.getD k (0, 0)).1.testBit c = false :=
            hI2 c hPc (fun cp hcp => hnp cp (List.mem_append_left _ hcp))
          have hE1free : ∀ k, st.row ≤ k → k < n →
              ((swapIdx st.eqs st.row sel).getD k (0, 0)).1.testBit c = false := by
            intro k hk1 hk2
            rw [hE1get k]
            split_ifs with h1 h2
            · exact hold st.row le_rfl hrlt
            · exact hold sel hfs1 hseln
            · exact hold k hk1 hk2
          rw [hE2get q (by omega)]
          split_ifs with h1
          · rw [Nat.testBit_xor, hE1free q (by omega) hq2, ← hE1row,
              hE1free st.row le_rfl hrlt]
            rfl
          · exact hE1free q (by omega) hq2
        · -- mask bounds
          intro q hq
          have hm : ∀ k, k < n → (st.eqs.getD k (0, 0)).1 < 2 ^ 128 := hmask
          have hE1m : ∀ k, k < n →
              ((swapIdx st.eqs st.row sel).getD k (0, 0)).1 < 2 ^ 128 := by
            intro k hk
            rw [hE1get k]
            split_ifs
            · exact hm st.row hrlt
            · exact hm sel hseln
            · exact hm k hk
          rw [hE2get q hq]
          split_ifs with h1
          · exact Nat.xor_lt_two_pow (hE1m q hq) (by rw [← hE1row]; exact hE1m st.row hrlt)
          · exact hE1m q hq

theorem ElimInv_mono (n : Nat) (orig : List (Nat × Nat)) (P Q : Nat → Prop)
    (himp : ∀ c, Q c → P c) (st : GESt) (h : ElimInv n orig P st) :
    ElimInv n orig Q st := by
  obtain ⟨h1, h2, h3, h4, h5, h6, h7, h8, h9, h10⟩ := h
  exact ⟨h1, h2, h3, h4, h5, h6, h7, h8,
    fun c hc => h9 c (himp c hc), h10⟩

theorem foldElim_inv (n : Nat) (orig : List (Nat × Nat)) :
    ∀ (cols : List Nat) (P : Nat → Prop) (st : GESt),
      (∀ c ∈ cols, c < 128) → ElimInv n orig P st →
      ElimInv n orig (fun c => c ∈ cols ∨ P c) (cols.foldl elimStep st) := by
  intro cols
  induction cols with
  | nil =>
      intro P st _ hinv
      exact ElimInv_mono n orig P _ (fun c hc => hc.elim (fun h => absurd h (by simp)) id)
        st hinv
  | cons d cs ih =>
      intro P st hcols hinv
      rw [List.foldl_cons]
      have h1 := elimStep_inv n orig P st d (hcols d (by simp)) hinv
      have h2 := ih (fun c => c = d ∨ P c) (elimStep st d)
        (fun c hc => hcols c (by simp [hc])) h1
      apply ElimInv_mono n orig _ _ ?_ _ h2
      intro c hc
      rcases hc with hc | hc
      · rcases List.mem_cons.mp hc with hc' | hc'
        · exact Or.inr (Or.inl hc')
        · exact Or.inl hc'
      · exact Or.inr (Or.inr hc)

theorem getD_mem_pairs (l : List (Nat × Nat)) (q : Nat) (hq : q < l.length) :
    l.getD q (0, 0) ∈ l := by
  rw [List.getD_eq_getElem _ _ hq]
  exact List.getElem_mem hq

theorem pivots_pos_eq (piv : List (Nat × Nat))
    (hpos : ∀ q, q < piv.length → (piv.getD q (0, 0)).2 = q)
    {cp : Nat × Nat} (hcp : cp ∈ piv) :
    piv.getD cp.2 (0, 0) = cp ∧ cp.2 < piv.length := by
  obtain ⟨k, hk, heq⟩ := List.mem_iff_getElem.mp hcp
  have h2 := hpos k hk
  rw [List.getD_eq_getElem _ _ hk, heq] at h2
  constructor
  · rw [h2, List.getD_eq_getElem _ _ hk, heq]
  · omega

theorem formSol_fold_testBit (eqs : List (Nat × Nat)) :
    ∀ (pivots : List (Nat × Nat)) (s b : Nat),
      (pivots.foldl
        (fun s cr => if (eqs.getD cr.2 (0, 0)).2 ≠ 0 then s ||| (1 <<< cr.1) else s)
        s).testBit b
        = (s.testBit b ||
            pivots.any (fun cr =>
              decide (cr.1 = b) && decide ((eqs.getD cr.2 (0, 0)).2 ≠ 0))) := by
  intro pivots
  induction pivots with
  | nil => intro s b; simp
  | cons cr t ih =>
      intro s b
      rw [List.foldl_cons, ih, List.any_cons]
      have hstep : ((if (eqs.getD cr.2 (0, 0)).2 ≠ 0 then s ||| (1 <<< cr.1)
          else s)).testBit b
          = (s.testBit b || (decide (cr.1 = b) && decide ((eqs.getD cr.2 (0, 0)).2 ≠ 0))) := by
        split_ifs with hrhs
        · rw [Nat.testBit_or, Nat.one_shiftLeft, Nat.testBit_two_pow,
            decide_eq_true hrhs, Bool.and_true]
        · rw [decide_eq_false hrhs, Bool.and_false, Bool.or_false]
      rw [hstep, Bool.or_assoc]

theorem formSol_testBit (eqs pivots : List (Nat × Nat)) (b : Nat) :
    (formSol eqs pivots).testBit b
      = pivots.any (fun cr =>
          decide (cr.1 = b) && decide ((eqs.getD cr.2 (0, 0)).2 ≠ 0)) := by
  rw [formSol, formSol_fold_testBit]
  simp

theorem formSol_lt (eqs pivots : List (Nat × Nat))
    (h : ∀ cp ∈ pivots, cp.1 < 128) : formSol eqs pivots < 2 ^ 128 := by
  rw [formSol]
  have : ∀ (piv : List (Nat × Nat)) (s : Nat), (∀ cp ∈ piv, cp.1 < 128) → s < 2 ^ 128 →
      (piv.foldl
        (fun s cr => if (eqs.getD cr.2 (0, 0)).2 ≠ 0 then s ||| (1 <<< cr.1) else s)
        s) < 2 ^ 128 := by
    intro piv
    induction piv with
    | nil => intro s _ hs; simpa using hs
    | cons cr t ih =>
        intro s hh hs
        rw [List.foldl_cons]
        apply ih _ (fun cp hcp => hh cp (by simp [hcp]))
        split_ifs
        · apply Nat.or_lt_two_pow hs
          rw [Nat.one_shiftLeft]
          exact Nat.pow_lt_pow_right (by norm_num) (hh cr (by simp))
        · exact hs
  exact this pivots 0 h (by positivity)

/-- If every row mask is a 128-bit value and the system has a solution,
the solver succeeds: after elimination, every pivot row reduces to its
pivot column plus free columns (all zero in the candidate), and every
non-pivot row is identically zero with a zero right-hand side, so the
verification pass accepts the candidate. -/
theorem solve_gf2_complete (rows rhs : List Nat)
    (hmask : ∀ q, q < (rows.zip rhs).length → ((rows.zip rhs).getD q (0, 0)).1 < 2 ^ 128)
    (y : Nat) (hy : satAll y (rows.zip rhs)) :
    ∃ sol, solve_gf2 rows rhs = some sol ∧ sol < 2 ^ 128 := by
  have hinv0 : ElimInv (rows.zip rhs).length (rows.zip rhs) (fun _ => False)
      { eqs := rows.zip rhs, pivots := [], row := 0, broken := false } := by
    refine ⟨rfl, rfl, Nat.zero_le _, ?_, fun x => Iff.rfl, ?_, ?_, ?_, ?_, hmask⟩
    · intro h; simp at h
    · intro q hq; simp at hq
    · intro cp hcp; simp at hcp
    · intro cp hcp; simp at hcp
    · intro c hc; simp at hc
  have hfold := foldElim_inv (rows.zip rhs).length (rows.zip rhs)
    ((List.range 128).reverse) (fun _ => False)
    { eqs := rows.zip rhs, pivots := [], row := 0, broken := false }
    (fun c hc => List.mem_range.mp (List.mem_reverse.mp hc)) hinv0
  set n := (rows.zip rhs).length with hn
  set fin := ((List.range 128).reverse).foldl elimStep
    { eqs := rows.zip rhs, pivots := [], row := 0, broken := false } with hfin
  obtain ⟨hlenF, hrowF, hrownF, _, hsatF, hposF, hcolsF, hI3F, hI2F, hmaskF⟩ := hfold
  have hyF : satAll y fin.eqs := (hsatF y).mpr hy
  have hsol_lt : formSol fin.eqs fin.pivots < 2 ^ 128 := formSol_lt _ _ hcolsF
  set sol := formSol fin.eqs fin.pivots with hsol_def
  -- a pivot entry is determined by its position
  have hpos_det : ∀ cp ∈ fin.pivots, ∀ cp' ∈ fin.pivots, cp.2 = cp'.2 → cp = cp' := by
    intro cp hcp cp' hcp' h22
    obtain ⟨e1, _⟩ := pivots_pos_eq fin.pivots hposF hcp
    obtain ⟨e2, _⟩ := pivots_pos_eq fin.pivots hposF hcp'
    rw [← e1, ← e2, h22]
  -- pivots have distinct columns
  have huniq : ∀ cp ∈ fin.pivots, ∀ cp' ∈ fin.pivots, cp.1 = cp'.1 → cp = cp' := by
    intro cp hcp cp' hcp' hcc
    have hlt : cp'.2 < fin.row := pivots_mem_pos hrowF hposF hcp'
    have h1 := hI3F cp hcp cp'.2 (by omega)
    have h2 := hI3F cp' hcp' cp'.2 (by omega)
    rw [hcc] at h1
    rw [h1] at h2
    have h3 : cp'.2 = cp.2 := of_decide_eq_true (h2.trans (decide_eq_true rfl))
    exact (hpos_det cp' hcp' cp hcp h3).symm
  -- value of the candidate at a pivot column
  have hsolbit_piv : ∀ cp ∈ fin.pivots,
      sol.testBit cp.1 = decide ((fin.eqs.getD cp.2 (0, 0)).2 ≠ 0) := by
    intro cp hcp
    rw [hsol_def, formSol_testBit]
    by_cases hrhs : (fin.eqs.getD cp.2 (0, 0)).2 ≠ 0
    · rw [decide_eq_true hrhs]
      apply List.any_eq_true.mpr
      exact ⟨cp, hcp, by rw [decide_eq_true rfl, decide_eq_true hrhs]; rfl⟩
    · rw [decide_eq_false hrhs]
      apply List.any_eq_false.mpr
      intro cr hcr
      rw [Bool.and_eq_true, decide_eq_true_eq, decide_eq_true_eq]
      rintro ⟨hc1, hc2⟩
      exact hrhs ((huniq cp hcp cr hcr hc1.symm) ▸ hc2)
  -- value of the candidate at a pivot-free column
  have hsolbit_free : ∀ b, (∀ cp ∈ fin.pivots, cp.1 ≠ b) → sol.testBit b = false := by
    intro b hb
    rw [hsol_def, formSol_testBit]
    apply List.any_eq_false.mpr
    intro cr hcr
    rw [Bool.and_eq_true, decide_eq_true_eq, decide_eq_true_eq]
    rintro ⟨hc1, -⟩
    exact hb cr hcr hc1
  have hver : satAll sol fin.eqs := by
    rw [satAll_iff_getD]
    intro q hq
    have hqn : q < n := by rw [← hlenF]; exact hq
    by_cases hqrow : q < fin.row
    · -- a pivot row
      have hq_pl : q < fin.pivots.length := by rw [← hrowF]; exact hqrow
      have hcp_mem : fin.pivots.getD q (0, 0) ∈ fin.pivots := getD_mem_pairs _ q hq_pl
      have hcp_pos : (fin.pivots.getD q (0, 0)).2 = q := hposF q hq_pl
      have hmask_and : (fin.eqs.getD q (0, 0)).1 &&& sol
          = if sol.testBit (fin.pivots.getD q (0, 0)).1
            then 2 ^ (fin.pivots.getD q (0, 0)).1 else 0 := by
        apply Nat.eq_of_testBit_eq
        intro b
        rw [Nat.testBit_and]
        by_cases hb : b < 128
        · by_cases hbp : ∃ cp' ∈ fin.pivots, cp'.1 = b
          · obtain ⟨cp', hcp', rfl⟩ := hbp
            rw [hI3F cp' hcp' q hqn]
            rcases eq_or_ne cp' (fin.pivots.getD q (0, 0)) with heq | hne
            · rw [heq, hcp_pos, decide_eq_true rfl, Bool.true_and]
              cases hsb : sol.testBit (fin.pivots.getD q (0, 0)).1
              · rw [if_neg (by simp), Nat.zero_testBit]
              · rw [if_pos rfl, Nat.testBit_two_pow, decide_eq_true rfl]
            · have hne2 : ¬ q = cp'.2 := by
                intro hq2
                apply hne
                apply hpos_det cp' hcp' _ hcp_mem
                omega
              rw [decide_eq_false hne2, Bool.false_and]
              have hne3 : (fin.pivots.getD q (0, 0)).1 ≠ cp'.1 := by
                intro hcc
                exact hne (huniq cp' hcp' _ hcp_mem hcc.symm)
              cases hsb : sol.testBit (fin.pivots.getD q (0, 0)).1
              · rw [if_neg (by simp), Nat.zero_testBit]
              · rw [if_pos rfl, Nat.testBit_two_pow, decide_eq_false hne3]
          · have hfree := hsolbit_free b (fun cp' h' hcc => hbp ⟨cp', h', hcc⟩)
            rw [hfree, Bool.and_false]
            have hne3 : (fin.pivots.getD q (0, 0)).1 ≠ b := by
              intro hcc
              exact hbp ⟨_, hcp_mem, hcc⟩
            cases hsb : sol.testBit (fin.pivots.getD q (0, 0)).1
            · rw [if_neg (by simp), Nat.zero_testBit]
            · rw [if_pos rfl, Nat.testBit_two_pow, decide_eq_false hne3]
        · rw [testBit_high_false (hmaskF q hqn) (by omega), Bool.false_and]
          have hc128 : (fin.pivots.getD q (0, 0)).1 < 128 := hcolsF _ hcp_mem
          cases hsb : sol.testBit (fin.pivots.getD q (0, 0)).1
          · rw [if_neg (by simp), Nat.zero_testBit]
          · rw [if_pos rfl, Nat.testBit_two_pow, decide_eq_false (by omega)]
      show satEq sol (fin.eqs.getD q (0, 0))
      have hbitval := hsolbit_piv _ hcp_mem
      rw [hcp_pos] at hbitval
      rw [satEq, hmask_and, hbitval]
      have hrhs2 : (fin.eqs.getD q (0, 0)).2 < 2 :=
        satEq_rhs_lt ((satAll_iff_getD y fin.eqs).mp hyF q hq)
      by_cases h0 : (fin.eqs.getD q (0, 0)).2 = 0
      · rw [h0, decide_eq_false (by omega), if_neg (by simp)]
        simp [popcount_zero]
      · have h1 : (fin.eqs.getD q (0, 0)).2 = 1 := by omega
        rw [h1, decide_eq_true (by omega), if_pos rfl, popcount_two_pow]
    · -- a pivot-free row: its mask is zero and its rhs must be zero
      have hmask0 : (fin.eqs.getD q (0, 0)).1 = 0 := by
        apply Nat.eq_of_testBit_eq
        intro b
        rw [Nat.zero_testBit]
        by_cases hb : b < 128
        · by_cases hbp : ∃ cp' ∈ fin.pivots, cp'.1 = b
          · obtain ⟨cp', hcp', rfl⟩ := hbp
            rw [hI3F cp' hcp' q hqn]
            have : cp'.2 < fin.row := pivots_mem_pos hrowF hposF hcp'
            rw [decide_eq_false (by omega)]
          · exact hI2F b
              (Or.inl (List.mem_reverse.mpr (List.mem_range.mpr hb)))
              (fun cp' h' hcc => hbp ⟨cp', h', hcc⟩) q (by omega) hqn
        · exact testBit_high_false (hmaskF q hqn) (by omega)
      have hrhs0 : (fin.eqs.getD q (0, 0)).2 = 0 := by
        have hyq := (satAll_iff_getD y fin.eqs).mp hyF q hq
        rw [satEq, hmask0, Nat.zero_and] at hyq
        rw [← hyq]
        rfl
      show satEq sol (fin.eqs.getD q (0, 0))
      rw [satEq, hmask0, hrhs0, Nat.zero_and]
      rfl
  refine ⟨sol, ?_, hsol_lt⟩
  have hunf : solve_gf2 rows rhs
      = if verify fin.eqs (formSol fin.eqs fin.pivots)
        then some (formSol fin.eqs fin.pivots) else none := rfl
  rw [hunf, if_pos ((verify_eq_true_iff _ _).mpr hver)]

/-! ### Generator orbit, prediction, and equation construction -/

theorem next_raw_fst (s : Nat) : (next_raw s).1 = advance s := rfl

theorem next_raw_snd (s : Nat) : (next_raw s).2 = advance s := rfl

theorem peek_next_eq (s : Nat) : peek_next s = advance s := rfl

theorem rngState_eq (seed : Nat) : ∀ k, rngState seed k = advance^[k] (initState seed) := by
  intro k
  induction k with
  | zero => rfl
  | succ m ih =>
      show (next_raw (rngState seed m)).1 = _
      rw [next_raw_fst, ih, Function.iterate_succ_apply']

theorem rngOutput_eq (seed k : Nat) : rngOutput seed k = advance^[k + 1] (initState seed) := by
  rw [rngOutput, next_raw_snd, rngState_eq, Function.iterate_succ_apply']

theorem initState_lt (seed : Nat) : initState seed < 2 ^ 128 := and_MASK128_lt seed

theorem predict_eq (state : Nat) : ∀ steps, predict_next_from_state state steps
    = advance^[steps] state := by
  intro steps
  induction steps with
  | zero => rfl
  | succ k ih =>
      show ((((predict_next_from_state state k ^^^ _) ^^^ _) ^^^ _) &&& _) = _
      rw [ih, Function.iterate_succ_apply']
      rfl

theorem shift_and_one (x b : Nat) : (x >>> b) &&& 1 = (x.testBit b).toNat := by
  rw [Nat.and_one_is_mod, Nat.shiftRight_eq_div_pow, Nat.testBit_to_div_mod]
  rcases Nat.mod_two_eq_zero_or_one (x / 2 ^ b) with h | h <;> rw [h] <;> simp

theorem zip_map_fst_snd (l : List (Nat × Nat)) :
    (l.map Prod.fst).zip (l.map Prod.snd) = l := by
  induction l with
  | nil => rfl
  | cons a t ih => simp [ih]

theorem construct_zip (observed : List Nat) (output_bits : Nat) :
    ((construct_equations observed output_bits).1).zip
      ((construct_equations observed output_bits).2)
      = constructPairs observed output_bits := by
  rw [construct_equations]
  exact zip_map_fst_snd _

theorem mem_enum_getD {l : List Nat} {p : Nat × Nat} (h : p ∈ l.enum) :
    p.1 < l.length ∧ l.getD p.1 0 = p.2 := by
  have h2 := (List.mem_enum_iff_getElem?).mp h
  have h3 : p.1 < l.length := by
    by_contra hc
    rw [List.getElem?_eq_none (by omega)] at h2
    exact Option.noConfusion h2
  refine ⟨h3, ?_⟩
  rw [List.getD_eq_getElem _ _ h3]
  rw [List.getElem?_eq_getElem h3] at h2
  exact Option.some.inj h2

theorem constructPairs_mem {observed : List Nat} {output_bits : Nat} {e : Nat × Nat}
    (h : e ∈ constructPairs observed output_bits) :
    ∃ t b, t < observed.length ∧ b < output_bits ∧
      e.1 = (build_maps observed.length).getD t (fun _ => 0) b ∧ e.1 ≠ 0 ∧
      e.2 = ((observed.getD t 0) >>> b) &&& 1 := by
  rw [constructPairs] at h
  obtain ⟨tOut, htOut, hin⟩ := List.mem_flatMap.mp h
  obtain ⟨b, hb, hsome⟩ := List.mem_filterMap.mp hin
  obtain ⟨ht1, ht2⟩ := mem_enum_getD htOut
  dsimp only at hsome
  split_ifs at hsome with hne
  · have he := Option.some.inj hsome
    refine ⟨tOut.1, b, ht1, List.mem_range.mp hb, ?_, ?_, ?_⟩
    · rw [← he]
    · rw [← he]; exact hne
    · rw [← he, ht2]

theorem constructPairs_mem_of (observed : List Nat) (output_bits t b : Nat)
    (ht : t < observed.length) (hb : b < output_bits)
    (hne : (build_maps observed.length).getD t (fun _ => 0) b ≠ 0) :
    ((build_maps observed.length).getD t (fun _ => 0) b,
      ((observed.getD t 0) >>> b) &&& 1) ∈ constructPairs observed output_bits := by
  rw [constructPairs]
  apply List.mem_flatMap.mpr
  refine ⟨(t, observed.getD t 0), ?_, ?_⟩
  · apply (List.mem_enum_iff_getElem?).mpr
    show observed[t]? = some (observed.getD t 0)
    rw [List.getElem?_eq_getElem ht, List.getD_eq_getElem _ _ ht]
  · apply List.mem_filterMap.mpr
    refine ⟨b, List.mem_range.mpr hb, ?_⟩
    rw [if_pos hne]

theorem toNat_inj (a b : Bool) (h : a.toNat = b.toNat) : a = b := by
  cases a <;> cases b <;> first | rfl | simp at h

theorem obsList_length (seed k : Nat) : (obsList seed k).length = k := by
  simp [obsList]

theorem obsList_getD (seed k t : Nat) (ht : t < k) :
    (obsList seed k).getD t 0 = rngOutput seed t := by
  rw [obsList, List.getD_eq_getElem _ _ (by simpa using ht)]
  simp

theorem sat_unit_pin (eqs : List (Nat × Nat)) (sol v : Nat) (hsol : sol < 2 ^ 128)
    (hv : v < 2 ^ 128)
    (hmem : ∀ b, b < 128 → (1 <<< b, (v >>> b) &&& 1) ∈ eqs)
    (hsat : satAll sol eqs) : sol = v := by
  apply Nat.eq_of_testBit_eq
  intro b
  by_cases hb : b < 128
  · have hse := hsat _ (hmem b hb)
    have h1 : dotp (1 <<< b) sol = (v >>> b) &&& 1 := hse
    rw [dotp_single, shift_and_one] at h1
    exact toNat_inj _ _ h1
  · rw [testBit_high_false hsol (by omega), testBit_high_false hv (by omega)]

theorem obs_pairs_sat (seed k : Nat) :
    satAll (advance (initState seed)) (constructPairs (obsList seed k) 128) := by
  intro e he
  obtain ⟨t, b, ht, hb, hm, -, hr⟩ := constructPairs_mem he
  rw [obsList_length] at ht hm
  rw [build_maps_getD k t ht] at hm
  have hs1 : advance (initState seed) < 2 ^ 128 := advance_lt _
  show popcount (e.1 &&& advance (initState seed)) % 2 = e.2
  rw [hm, hr, obsList_getD seed k t ht, shift_and_one, rngOutput_eq]
  have hiter : advance^[t + 1] (initState seed) = advance^[t] (advance (initState seed)) :=
    Function.iterate_succ_apply advance t (initState seed)
  rw [hiter]
  exact map_fidelity (advance (initState seed)) hs1 t b hb

theorem obs_pairs_unit (seed k : Nat) (hk : 1 ≤ k) (b : Nat) (hb : b < 128) :
    (1 <<< b, ((rngOutput seed 0) >>> b) &&& 1) ∈ constructPairs (obsList seed k) 128 := by
  have h0 : (0 : Nat) < (obsList seed k).length := by rw [obsList_length]; omega
  have hmap : (build_maps (obsList seed k).length).getD 0 (fun _ => 0) = basisCoeffs := by
    rw [build_maps_getD _ 0 h0]
    rfl
  have hne : (build_maps (obsList seed k).length).getD 0 (fun _ => 0) b ≠ 0 := by
    rw [hmap, basisCoeffs, Nat.one_shiftLeft]
    positivity
  have := constructPairs_mem_of (obsList seed k) 128 0 b h0 hb hne
  rw [hmap] at this
  rw [show (obsList seed k).getD 0 0 = rngOutput seed 0 from obsList_getD seed k 0 (by omega)]
    at this
  exact this

theorem pairs_mask_lt (observed : List Nat) (output_bits : Nat)
    (hob : output_bits ≤ 128) (q : Nat)
    (hq : q < (constructPairs observed output_bits).length) :
    ((constructPairs observed output_bits).getD q (0, 0)).1 < 2 ^ 128 := by
  have hmem := getD_mem_pairs _ q hq
  obtain ⟨t, b, ht, hb, hm, -, -⟩ := constructPairs_mem hmem
  rw [hm, build_maps_getD _ t ht]
  exact mapStep_iterate_lt t b (by omega)

/-- Full-width recovery helper: from any `k ≥ 1` full observations of the
generator, the solver succeeds and returns the generator state after the
first advance, i.e. the first output itself (not the seed: `next_raw`
advances before returning). -/
theorem recover_full (seed k : Nat) (hk : 1 ≤ k) :
    solve_gf2 (construct_equations (obsList seed k) 128).1
      (construct_equations (obsList seed k) 128).2
      = some (advance (initState seed)) := by
  have hzip := construct_zip (obsList seed k) 128
  have hmask : ∀ q, q < (((construct_equations (obsList seed k) 128).1).zip
      ((construct_equations (obsList seed k) 128).2)).length →
      ((((construct_equations (obsList seed k) 128).1).zip
        ((construct_equations (obsList seed k) 128).2)).getD q (0, 0)).1 < 2 ^ 128 := by
    rw [hzip]
    exact fun q hq => pairs_mask_lt _ _ le_rfl q hq
  have hy : satAll (advance (initState seed))
      (((construct_equations (obsList seed k) 128).1).zip
        ((construct_equations (obsList seed k) 128).2)) := by
    rw [hzip]
    exact obs_pairs_sat seed k
  obtain ⟨sol, hsolve, hlt⟩ := solve_gf2_complete _ _ hmask _ hy
  have hsound := solve_gf2_sound _ _ _ hsolve
  rw [hzip] at hsound
  have hv : rngOutput seed 0 < 2 ^ 128 := by
    rw [rngOutput_eq]
    exact advance_lt _
  have hpin : sol = rngOutput seed 0 :=
    sat_unit_pin _ sol (rngOutput seed 0) hlt hv (fun b hb => obs_pairs_unit seed k hk b hb)
      hsound
  rw [hsolve, hpin, rngOutput_eq]
  rfl

/-! ### Unsatisfiable systems make the solver fail -/

theorem solve_none_of_unsat (rows rhs : List Nat)
    (h : ∀ x, ¬ satAll x (rows.zip rhs)) : solve_gf2 rows rhs = none := by
  cases hs : solve_gf2 rows rhs with
  | none => rfl
  | some sol => exact absurd (solve_gf2_sound rows rhs sol hs) (h sol)

theorem and_low (m x : Nat) (hm : m < 2 ^ 128) : m &&& x = m &&& (x &&& MASK128) := by
  apply Nat.eq_of_testBit_eq
  intro b
  rw [Nat.testBit_and, Nat.testBit_and, Nat.testBit_and, testBit_MASK128]
  by_cases hb : b < 128
  · simp [hb]
  · rw [testBit_high_false hm (by omega)]
    simp

theorem satEq_mask (x : Nat) (e : Nat × Nat) (hm : e.1 < 2 ^ 128)
    (h : satEq x e) : satEq (x &&& MASK128) e := by
  rw [satEq] at *
  rwa [← and_low _ _ hm]

theorem mapStep_basis_ne_zero (b : Nat) (hb : b < 128) : mapStep basisCoeffs b ≠ 0 := by
  intro h0
  have hbit : (mapStep basisCoeffs b).testBit b = false := by
    rw [h0]
    exact Nat.zero_testBit b
  rw [mapStep_apply _ b hb, Nat.testBit_xor, Nat.testBit_xor, Nat.testBit_xor] at hbit
  have e1 : (basisCoeffs b).testBit b = true := by
    rw [basisCoeffs, Nat.one_shiftLeft, Nat.testBit_two_pow, decide_eq_true rfl]
  have e2 : (if 7 ≤ b then basisCoeffs (b - 7) else 0).testBit b = false := by
    split_ifs with hg
    · rw [basisCoeffs, Nat.one_shiftLeft, Nat.testBit_two_pow, decide_eq_false (by omega)]
    · exact Nat.zero_testBit b
  have e3 : (if b + 13 < 128 then basisCoeffs (b + 13) else 0).testBit b = false := by
    split_ifs with hg
    · rw [basisCoeffs, Nat.one_shiftLeft, Nat.testBit_two_pow, decide_eq_false (by omega)]
    · exact Nat.zero_testBit b
  have e4 : (basisCoeffs ((b + 91) % 128)).testBit b = false := by
    rw [basisCoeffs, Nat.one_shiftLeft, Nat.testBit_two_pow, decide_eq_false (by omega)]
  rw [e1, e2, e3, e4] at hbit
  simp at hbit

theorem two_obs_unsat (o0 o1 : Nat) (h0 : o0 < 2 ^ 128) (h1 : o1 < 2 ^ 128)
    (hne : o1 ≠ advance o0) :
    ∀ x, ¬ satAll x (constructPairs [o0, o1] 128) := by
  intro x hx
  have hlen2 : ([o0, o1] : List Nat).length = 2 := rfl
  have hx' : satAll (x &&& MASK128) (constructPairs [o0, o1] 128) := by
    intro e he
    have hm : e.1 < 2 ^ 128 := by
      obtain ⟨t, b, ht, hb, hmk, -, -⟩ := constructPairs_mem he
      rw [hmk, build_maps_getD _ t ht]
      exact mapStep_iterate_lt t b (by omega)
    exact satEq_mask x e hm (hx e he)
  have hxlt : x &&& MASK128 < 2 ^ 128 := and_MASK128_lt x
  have hunit : ∀ b, b < 128 → ((1 <<< b : Nat), (o0 >>> b) &&& 1)
      ∈ constructPairs [o0, o1] 128 := by
    intro b hb
    have h0' : (0 : Nat) < ([o0, o1] : List Nat).length := by rw [hlen2]; omega
    have hmap : (build_maps ([o0, o1] : List Nat).length).getD 0 (fun _ => 0)
        = basisCoeffs := by
      rw [build_maps_getD _ 0 h0']
      rfl
    have hne0 : (build_maps ([o0, o1] : List Nat).length).getD 0 (fun _ => 0) b ≠ 0 := by
      rw [hmap, basisCoeffs, Nat.one_shiftLeft]
      positivity
    have := constructPairs_mem_of [o0, o1] 128 0 b h0' hb hne0
    rw [hmap] at this
    exact this
  have hpin : x &&& MASK128 = o0 :=
    sat_unit_pin _ _ o0 hxlt h0 hunit hx'
  have hstep1 : ∀ b, b < 128 → (advance o0).testBit b = o1.testBit b := by
    intro b hb
    have h1' : (1 : Nat) < ([o0, o1] : List Nat).length := by rw [hlen2]; omega
    have hmap1 : (build_maps ([o0, o1] : List Nat).length).getD 1 (fun _ => 0)
        = mapStep basisCoeffs := by
      rw [build_maps_getD _ 1 h1']
      rfl
    have hne1 : (build_maps ([o0, o1] : List Nat).length).getD 1 (fun _ => 0) b ≠ 0 := by
      rw [hmap1]
      exact mapStep_basis_ne_zero b hb
    have hmem := constructPairs_mem_of [o0, o1] 128 1 b h1' hb hne1
    rw [hmap1] at hmem
    have hse := hx' _ hmem
    rw [hpin] at hse
    have hgd : ([o0, o1] : List Nat).getD 1 0 = o1 := rfl
    rw [hgd] at hse
    have hfid := map_fidelity o0 h0 1 b hb
    have hit1 : (mapStep^[1] basisCoeffs) = mapStep basisCoeffs := by
      rw [Function.iterate_one]
    have hit2 : advance^[1] o0 = advance o0 := rfl
    rw [hit1, hit2] at hfid
    have : dotp (mapStep basisCoeffs b) o0 = (o1 >>> b) &&& 1 := hse
    rw [hfid, shift_and_one] at this
    exact toNat_inj _ _ this
  apply hne
  apply Nat.eq_of_testBit_eq
  intro b
  by_cases hb : b < 128
  · exact (hstep1 b hb).symm
  · rw [testBit_high_false h1 (by omega), testBit_high_false (advance_lt o0) (by omega)]

theorem two_obs_none (o0 o1 : Nat) (h0 : o0 < 2 ^ 128) (h1 : o1 < 2 ^ 128)
    (hne : o1 ≠ advance o0) :
    solve_gf2 (construct_equations [o0, o1] 128).1
      (construct_equations [o0, o1] 128).2 = none := by
  apply solve_none_of_unsat
  rw [construct_zip]
  exact fun x hx => two_obs_unsat o0 o1 h0 h1 hne x hx

theorem initState_eq_of_lt (s : Nat) (hs : s < 2 ^ 128) : initState s = s := by
  rw [initState, MASK128, Nat.one_shiftLeft, Nat.and_pow_two_sub_one_eq_mod,
    Nat.mod_eq_of_lt hs]

/-! ### The claims -/

set_option maxRecDepth 100000

/-- C1: `solve_gf2` is sound: a returned value satisfies every equation of
the original input system (elimination preserves the solution set and the
verification pass checks the final system); consequently an unsatisfiable
system — in particular one built from two full-width observations `o0`,
`o1` with `o1 ≠ advance o0`, as a non-linear generator produces — yields
explicit failure `none`, never a wrong state. -/
theorem claim_C1 (eqs : List (Nat × Nat)) :
    (∀ sol, solve_gf2 (eqs.map Prod.fst) (eqs.map Prod.snd) = some sol → satAll sol eqs) ∧
    ((∀ x, ¬ satAll x eqs) → solve_gf2 (eqs.map Prod.fst) (eqs.map Prod.snd) = none) ∧
    (∀ o0 o1 : Nat, o0 < 2 ^ 128 → o1 < 2 ^ 128 → o1 ≠ advance o0 →
      solve_gf2 (construct_equations [o0, o1] 128).1
        (construct_equations [o0, o1] 128).2 = none) := by
  refine ⟨?_, ?_, ?_⟩
  · intro sol h
    have := solve_gf2_sound _ _ _ h
    rwa [zip_map_fst_snd] at this
  · intro hunsat
    apply solve_none_of_unsat
    rw [zip_map_fst_snd]
    exact hunsat
  · exact fun o0 o1 a b c => two_obs_none o0 o1 a b c

/-- Witness for C1: at the one-equation system `x0 = 1` the theorem gives
a satisfied solution, and at `o0 = o1 = 1` (impossible for the linear
generator, since `advance 1 ≠ 1`) it gives explicit failure. -/
theorem claim_C1_witness :
    satAll 1 [((1 : Nat), (1 : Nat))] ∧
    solve_gf2 (construct_equations [1, 1] 128).1
      (construct_equations [1, 1] 128).2 = none :=
  ⟨(claim_C1 [(1, 1)]).1 1 (by decide),
   (claim_C1 [(1, 1)]).2.2 1 1 (by decide) (by decide) (by decide)⟩

/-- C2: map fidelity — for every 128-bit state `s`, step count `T ≥ 1`,
step `t < T` and bit index `i < 128`, the mask `build_maps(T)[t][i]`
predicts bit `i` of the `t`-times-advanced state by mask-AND-parity. -/
theorem claim_C2 (s T t i : Nat) (hs : s < 2 ^ 128) (hT : 1 ≤ T) (ht : t < T)
    (hi : i < 128) :
    popcount (((build_maps T).getD t (fun _ => 0)) i &&& s) % 2
      = ((advance^[t] s).testBit i).toNat := by
  rw [build_maps_getD T t ht]
  exact map_fidelity s hs t i hi

/-- Witness for C2 at `s = 5`, `T = 2`, `t = 1`, `i = 3`. -/
theorem claim_C2_witness :
    popcount (((build_maps 2).getD 1 (fun _ => 0)) 3 &&& 5) % 2
      = ((advance^[1] (5 : Nat)).testBit 3).toNat :=
  claim_C2 5 2 1 3 (by decide) (by decide) (by decide) (by decide)

/-- C3 as stated is false: with two full observations the solver returns
the state *after* the first advance (`next_raw` advances before
returning), not the seed.  At `s0 = 1` the result is `advance 1 ≠ 1`. -/
theorem claim_C3_counterexample :
    solve_gf2 (construct_equations (obsList 1 2) 128).1
      (construct_equations (obsList 1 2) 128).2 ≠ some 1 := by
  rw [recover_full 1 2 (by omega)]
  intro h
  exact absurd (Option.some.inj h) (by decide)

/-- C3 (amended): for every true initial state `s0 < 2^128`, with
`W = 128`, full observations and 2 samples, `solve_gf2` on the
constructed equations returns exactly `advance s0` — the generator state
at the time of the first output, which is the value the unknowns of the
equation system denote — rather than `s0` itself. -/
theorem claim_C3_amended (s0 : Nat) (hs0 : s0 < 2 ^ 128) :
    solve_gf2 (construct_equations (obsList s0 2) 128).1
      (construct_equations (obsList s0 2) 128).2 = some (advance s0) := by
  have h := recover_full s0 2 (by omega)
  rwa [initState_eq_of_lt s0 hs0] at h

/-- Witness for the amended C3 at `s0 = 1`. -/
theorem claim_C3_witness :
    solve_gf2 (construct_equations (obsList 1 2) 128).1
      (construct_equations (obsList 1 2) 128).2 = some (advance 1) :=
  claim_C3_amended 1 (by decide)

/-- C4: the code disagrees with the claimed high-selection mapping.  With
true state `2^64` and the oracle's "high" 64-bit masking the observed
value is `1`; `construct_equations` pairs observed bit `0` with
`StepMap[0][0] = 1` and right-hand side `1`, an equation the true state
*violates* (parity of `1 AND 2^64` is `0`), while the mapping the claim
specifies, `StepMap[0][64 + 0] = 2^64`, satisfies it. -/
theorem claim_C4_code_eval :
    mask_output (2 ^ 64) 64 "high" = 1 ∧
    (construct_equations [mask_output (2 ^ 64) 64 "high"] 64).1.getD 0 0 = 1 ∧
    (construct_equations [mask_output (2 ^ 64) 64 "high"] 64).2.getD 0 0 = 1 ∧
    popcount (1 &&& 2 ^ 64) % 2 = 0 ∧
    popcount ((build_maps 1).getD 0 (fun _ => 0) 64 &&& 2 ^ 64) % 2 = 1 := by
  refine ⟨by decide, by decide, by decide, by decide, by decide⟩

/-- C5 as stated is false: with one observation and `revealed_bits = 1`
the solver does not return `None`; at observation `0` it returns
`some 0` (the single consistent equation passes verification). -/
theorem claim_C5_counterexample :
    solve_gf2 (construct_equations [0] 1).1 (construct_equations [0] 1).2
      = some 0 := by
  decide

/-- C5 (amended): for every single observation `o` with
`revealed_bits = 1`, the solver returns `some (o &&& 1)` — the state
whose bit 0 is the observed bit and all other bits default to 0.  The
system is far underdetermined, but the only equation is consistent, so
the verification pass accepts the best-effort candidate; `solve_gf2`
fails only on inconsistency, never on underdetermination alone. -/
theorem claim_C5_amended (o : Nat) :
    solve_gf2 (construct_equations [o] 1).1 (construct_equations [o] 1).2
      = some (o &&& 1) := by
  have hce : construct_equations [o] 1 = ([1], [o &&& 1]) := rfl
  rw [hce]
  have h2 : o &&& 1 = 0 ∨ o &&& 1 = 1 := by
    rw [Nat.and_one_is_mod]
    exact Nat.mod_two_eq_zero_or_one o
  rcases h2 with h | h <;> rw [h] <;> decide

/-- C6: prediction correctness — whenever the pipeline on the first `k`
full-width outputs returns a recovered state `s`, forecasting `k` more
steps from `s` reproduces the `(k+1)`-th generator output bit-for-bit. -/
theorem claim_C6 (seed k s : Nat) (hk : 1 ≤ k)
    (h : solve_gf2 (construct_equations (obsList seed k) 128).1
      (construct_equations (obsList seed k) 128).2 = some s) :
    predict_next_from_state s k = rngOutput seed k := by
  have hrec := recover_full seed k hk
  rw [h] at hrec
  have hs : s = advance (initState seed) := Option.some.inj hrec
  rw [predict_eq, hs, rngOutput_eq]
  exact (Function.iterate_succ_apply advance k (initState seed)).symm

/-- Witness for C6 at `seed = 1`, `k = 1`, with the recovery hypothesis
discharged by the full-width recovery theorem. -/
theorem claim_C6_witness :
    predict_next_from_state (advance (initState 1)) 1 = rngOutput 1 1 :=
  claim_C6 1 1 (advance (initState 1)) (by omega) (recover_full 1 1 (by omega))

/-- C7: linearity round-trip — `advance` distributes over XOR on 128-bit
states and fixes 0. -/
theorem claim_C7 (s1 s2 : Nat) (h1 : s1 < 2 ^ 128) (h2 : s2 < 2 ^ 128) :
    advance (s1 ^^^ s2) = advance s1 ^^^ advance s2 ∧ advance 0 = 0 :=
  ⟨advance_xor h1 h2, advance_zero⟩

/-- Witness for C7 at `s1 = 3`, `s2 = 5`. -/
theorem claim_C7_witness :
    advance (3 ^^^ 5) = advance 3 ^^^ advance 5 ∧ advance 0 = 0 :=
  claim_C7 3 5 (by decide) (by decide)

/-- C8 as stated is false: `mask_output` never fails.  At the forbidden
configurations it silently produces values: `bits = 200 > W` returns the
full masked value, `bits = 0` returns `0`, and an unrecognized selection
string is processed like "low". -/
theorem claim_C8_counterexample :
    mask_output 5 200 "high" = 5 ∧ mask_output 7 0 "bogus" = 0 ∧
    mask_output 3 64 "bogus" = mask_output 3 64 "low" := by
  refine ⟨by decide, by decide, by decide⟩

/-- C8 (amended): `mask_output` is total and raises no configuration
error: `revealed_bits ≥ W` behaves exactly like full width,
`revealed_bits = 0` yields the value `0` for every observation, and an
unrecognized selection policy behaves exactly like "low". -/
theorem claim_C8_amended (x bits : Nat) (sel : String) :
    (128 ≤ bits → mask_output x bits sel = mask_output x 128 sel) ∧
    (bits = 0 → mask_output x bits sel = 0) ∧
    (sel ≠ "high" → mask_output x bits sel = mask_output x bits "low") := by
  refine ⟨?_, ?_, ?_⟩
  · intro hb
    rw [mask_output, mask_output, if_pos hb, if_pos (le_refl 128)]
  · intro hb
    subst hb
    rw [mask_output, if_neg (by omega)]
    split_ifs
    · simp
    · simp
  · intro hsel
    rw [mask_output, mask_output]
    by_cases hb : 128 ≤ bits
    · rw [if_pos hb, if_pos hb]
    · rw [if_neg hb, if_neg hb, if_neg hsel, if_neg (by decide)]

/-- Witness for the amended C8 at concrete forbidden configurations. -/
theorem claim_C8_witness :
    mask_output 5 200 "weird" = mask_output 5 128 "weird" ∧
    mask_output 7 0 "high" = 0 ∧
    mask_output 9 64 "weird" = mask_output 9 64 "low" :=
  ⟨(claim_C8_amended 5 200 "weird").1 (by omega),
   (claim_C8_amended 7 0 "high").2.1 rfl,
   (claim_C8_amended 9 64 "weird").2.2 (by decide)⟩

/-- C9: the two duplicated attacker implementations agree —
`build_symbolic_map` equals `build_maps` for every step count (the dead
local `mask` accumulator has no effect, and the four scattered XOR
contributions commute), and the two copies of `solve_gf2` agree on every
equation list. -/
theorem claim_C9 (steps : Nat) (rows rhs : List Nat) :
    build_symbolic_map steps = build_maps steps ∧
    solve_gf2A rows rhs = solve_gf2 rows rhs := by
  constructor
  · rw [build_symbolic_map, build_maps]
    have h : ∀ (n : Nat) (c : Nat → Nat), buildSymbolicMapAux c n = buildMapsAux c n := by
      intro n
      induction n with
      | zero => intro c; rfl
      | succ m ih =>
          intro c
          show c :: buildSymbolicMapAux (mapStepA c) m = c :: buildMapsAux (mapStep c) m
          rw [mapStepA_eq, ih]
    exact h steps basisCoeffs
  · rfl

/-- C10: `peek_next` is a pure preview — on every reachable state it
returns exactly what the next `next_raw` returns, `next_raw` returns
exactly its new state, and the output stream is precisely the orbit of
`advance` on the seed reduced mod `2^128`. -/
theorem claim_C10 (seed k : Nat) :
    peek_next (rngState seed k) = (next_raw (rngState seed k)).2 ∧
    (next_raw (rngState seed k)).1 = (next_raw (rngState seed k)).2 ∧
    rngOutput seed k = advance^[k + 1] (seed &&& MASK128) := by
  refine ⟨rfl, rfl, ?_⟩
  rw [rngOutput_eq]
  rfl
